import Mathlib

/-!
Verification of the Preetos order-parsing bot (`order_processor.py`).

This file shallowly embeds the three engines covered by the specification:
the deterministic extractor `_basic_parse` (regex cascades over the raw
message), the response reconciler `_extract_and_validate_response` /
`_create_order_from_json` (untrusted JSON recovery), and the Google-Sheets
row allocator `find_next_available_row` / row writer `update_order_row`.

Modelling conventions:
* Python strings are `List Char` in the scanning engines, wrapped into
  `String` at the data-model boundary.  Case-insensitive matching is
  modelled at the ASCII level (`lowerChar`), which is exact for the ASCII
  pattern literals used by the source.
* Python's dynamically typed JSON values are the inductive `JsonVal`;
  Python truthiness is `pyTruthy`; operations that would raise
  (`TypeError` / `AttributeError`) return `Except Unit _` and the
  enclosing `try`/`except` blocks are modelled by handling the error.
* Python `int` arithmetic is exact (`Nat`/`Int`/`Rat`); Python `float`
  arithmetic is modelled by `roundToDouble`, the exact rational value of
  the nearest IEEE-754 double (round to nearest, ties to even; overflow
  and subnormals are irrelevant at the magnitudes that occur here).
-/

namespace Preetos

/-! ## Characters -/

/-- ASCII lower-casing, as Python `str.lower` / `re.IGNORECASE` act on the
ASCII letters appearing in the source's pattern literals. -/
def lowerChar (c : Char) : Char :=
  if 'A' ≤ c ∧ c ≤ 'Z' then Char.ofNat (c.toNat + 32) else c

/-- ASCII upper-casing, as Python `str.upper` acts on ASCII letters. -/
def upperChar (c : Char) : Char :=
  if 'a' ≤ c ∧ c ≤ 'z' then Char.ofNat (c.toNat - 32) else c

/-- ASCII digit test (`\d` / `str.isdigit` on the ASCII inputs in scope). -/
def isDigitChar (c : Char) : Bool := '0' ≤ c && c ≤ '9'

/-- Python regex `\s` (ASCII whitespace: space, tab, newline, CR, VT, FF). -/
def isSpaceChar (c : Char) : Bool :=
  c = ' ' || c = '\t' || c = '\n' || c = '\r' || c.toNat = 11 || c.toNat = 12

/-- ASCII letter test (the `[A-Za-z]` part of the name-pattern class). -/
def isAlphaChar (c : Char) : Bool :=
  ('A' ≤ c && c ≤ 'Z') || ('a' ≤ c && c ≤ 'z')

/-- The class `[A-Za-z\s]` used by the customer-name patterns. -/
def isNameChar (c : Char) : Bool := isAlphaChar c || isSpaceChar c

/-! ## Runs and scanning primitives -/

/-- Maximal run of characters satisfying `p` at the head of the input,
returning the run and the rest (models a greedy regex character-class
repetition). -/
def runWhile (p : Char → Bool) : List Char → List Char × List Char
  | [] => ([], [])
  | c :: cs =>
    if p c then
      let r := runWhile p cs
      (c :: r.1, r.2)
    else ([], c :: cs)

/-- Greedy `\d+` at the head of the input. -/
def digitRun (s : List Char) : List Char × List Char := runWhile isDigitChar s

/-- Rest of the input after a greedy `\s*`. -/
def dropSpaces (s : List Char) : List Char := (runWhile isSpaceChar s).2

/-- Case-insensitive literal match: `pat` matches the head of `s` up to
ASCII case. -/
def ciStarts : List Char → List Char → Bool
  | [], _ => true
  | _ :: _, [] => false
  | p :: ps, c :: cs => lowerChar c = lowerChar p && ciStarts ps cs

/-- Python `int(str)` on a digit string. -/
def natOfDigits (s : List Char) : Nat :=
  s.foldl (fun a c => a * 10 + (c.toNat - 48)) 0

/-- Python `str.isdigit`: nonempty and all digits. -/
def pyIsdigit (s : List Char) : Bool := !s.isEmpty && s.all isDigitChar

/-- Python `str.strip()`: remove leading and trailing whitespace. -/
def pyStrip (s : List Char) : List Char :=
  (runWhile isSpaceChar (((runWhile isSpaceChar s.reverse).2).reverse)).2

/-- Python `str.title()` (ASCII): letters are upper-cased after a
non-letter and lower-cased after a letter. -/
def pyTitleAux : Bool → List Char → List Char
  | _, [] => []
  | prev, c :: cs =>
    let al := isAlphaChar c
    (if al then (if prev then lowerChar c else upperChar c) else c) ::
      pyTitleAux al cs

/-- Python `str.title()` (ASCII). -/
def pyTitle (s : List Char) : List Char := pyTitleAux false s

/-- Substring test on character lists (Python `in` on strings). -/
def containsSub (needle : List Char) : List Char → Bool
  | [] => needle.isEmpty
  | c :: cs => ciStartsExact needle (c :: cs) || containsSub needle cs
where
  /-- exact (case-sensitive) prefix test -/
  ciStartsExact : List Char → List Char → Bool
    | [], _ => true
    | _ :: _, [] => false
    | p :: ps, c :: cs => p = c && ciStartsExact ps cs

/-! ## The product catalog (`PRODUCTS` in the source) -/

/-- `Product` dataclass from the source. -/
structure Product where
  code : String
  name : String
  size : String
  price : Int
deriving DecidableEq, Repr

/-- An order line: a catalog product and a quantity.  The quantity is a
`Rat` because the JSON reconciliation path can accept any positive JSON
number (Python performs no integrality check there). -/
structure OrderItem where
  product : Product
  quantity : Rat
deriving DecidableEq, Repr

/-- The 8-entry catalog, in source order. -/
def PRODUCTS : List (String × Product) :=
  [("P-CHZ", ⟨"P-CHZ", "Cheese", "Pouch", 150⟩),
   ("P-SC", ⟨"P-SC", "Sour Cream", "Pouch", 150⟩),
   ("P-BBQ", ⟨"P-BBQ", "BBQ", "Pouch", 150⟩),
   ("P-OG", ⟨"P-OG", "Original Blend", "Pouch", 150⟩),
   ("2L-CHZ", ⟨"2L-CHZ", "Cheese", "Tub", 290⟩),
   ("2L-SC", ⟨"2L-SC", "Sour Cream", "Tub", 290⟩),
   ("2L-BBQ", ⟨"2L-BBQ", "BBQ", "Tub", 290⟩),
   ("2L-OG", ⟨"2L-OG", "Original Spice Blend", "Tub", 290⟩)]

/-- The catalog-code alternation of the item regexes, in source order. -/
def codeStrings : List (List Char) :=
  ["P-CHZ".data, "P-SC".data, "P-BBQ".data, "P-OG".data,
   "2L-CHZ".data, "2L-SC".data, "2L-BBQ".data, "2L-OG".data]

/-- The flavor-word alternation of the third item regex, in source order. -/
def flavorStrings : List (List Char) :=
  ["cheese".data, "sour cream".data, "bbq".data, "original".data]

/-- Regex alternation of case-insensitive literals: try each alternative in
order at the head of `s`; on success return the matched characters (in
their original case) and the rest. -/
def altLit : List (List Char) → List Char → Option (List Char × List Char)
  | [], _ => none
  | p :: ps, s =>
    if ciStarts p s then some (s.take p.length, s.drop p.length)
    else altLit ps s

/-! ## The three item matchers of `_basic_parse`

`patterns = [r'(\d+)\s*x?\s*(P-CHZ|...|2L-OG)',
             r'(P-CHZ|...|2L-OG)\s*x?\s*(\d+)',
             r'(cheese|sour cream|bbq|original).*?(\d+)']`,
all applied with `re.findall(..., re.IGNORECASE)`. -/

/-- The separator `\s*x?\s*` followed by the code alternation, with the
backtracking of `x?` (try consuming an `x`, else not). -/
def sepCode (t : List Char) : Option (List Char × List Char) :=
  let t1 := dropSpaces t
  match t1 with
  | c :: t2 =>
    if lowerChar c = 'x' then
      match altLit codeStrings (dropSpaces t2) with
      | some r => some r
      | none => altLit codeStrings t1
    else altLit codeStrings t1
  | [] => none

/-- Greedy backtracking of `(\d+)`: try the full digit run first, then
successively shorter runs (dropping digits from the right), as the regex
engine does.  `qrev` is the reversed candidate run still to try. -/
def tryRunsRev : List Char → List Char → Option ((List Char × List Char) × List Char)
  | [], _ => none
  | c :: qrev, t =>
    match sepCode t with
    | some (w, r) => some (((c :: qrev).reverse, w), r)
    | none => tryRunsRev qrev (c :: t)

/-- Anchored matcher for `(\d+)\s*x?\s*(CODE)`: returns the two groups and
the unconsumed rest. -/
def matchQtyCode (s : List Char) : Option ((List Char × List Char) × List Char) :=
  let (q, t) := digitRun s
  if q.isEmpty then none else tryRunsRev q.reverse t

/-- The separator `\s*x?\s*` followed by `(\d+)`, with the backtracking of
`x?`. -/
def sepDigits (t : List Char) : Option (List Char × List Char) :=
  let t1 := dropSpaces t
  match t1 with
  | c :: t2 =>
    if lowerChar c = 'x' then
      let d := digitRun (dropSpaces t2)
      if d.1.isEmpty then
        let d2 := digitRun t1
        if d2.1.isEmpty then none else some d2
      else some d
    else
      let d2 := digitRun t1
      if d2.1.isEmpty then none else some d2
  | [] => none

/-- Anchored matcher for `(CODE)\s*x?\s*(\d+)`. -/
def matchCodeQty (s : List Char) : Option ((List Char × List Char) × List Char) :=
  match altLit codeStrings s with
  | some (w, t) =>
    match sepDigits t with
    | some (d, r) => some ((w, d), r)
    | none => none
  | none => none

/-- The lazy `.*?(\d+)` tail of the flavor pattern: advance to the first
digit without crossing a newline (`.` does not match `\n`), then take the
greedy digit run. -/
def lazyDigits : List Char → Option (List Char × List Char)
  | [] => none
  | c :: cs =>
    if isDigitChar c then some (digitRun (c :: cs))
    else if c = '\n' then none
    else lazyDigits cs

/-- Anchored matcher for `(cheese|sour cream|bbq|original).*?(\d+)`. -/
def matchFlavor (s : List Char) : Option ((List Char × List Char) × List Char) :=
  match altLit flavorStrings s with
  | some (w, t) =>
    match lazyDigits t with
    | some (d, r) => some ((w, d), r)
    | none => none
  | none => none

/-- `re.findall` driver: scan left to right, at each position try the
anchored matcher; on success record the groups and resume after the match.
The fuel argument is an upper bound on the number of scan steps (every
successful match of the matchers above consumes at least one character). -/
def findallAux (m : List Char → Option ((List Char × List Char) × List Char)) :
    Nat → List Char → List (List Char × List Char)
  | 0, _ => []
  | _ + 1, [] => []
  | fuel + 1, s@(_ :: t) =>
    match m s with
    | some (g, r) => g :: findallAux m fuel r
    | none => findallAux m fuel t

/-- `re.findall(pattern, s)` for one of the three item patterns. -/
def findall (m : List Char → Option ((List Char × List Char) × List Char))
    (s : List Char) : List (List Char × List Char) :=
  findallAux m s.length s

/-- Body of the match loop of `_basic_parse`: classify the two groups
(quantity first or code first), upper-case the code, and keep the item
only when the code is a catalog key. -/
def matchToItem (g : List Char × List Char) : Option OrderItem :=
  if pyIsdigit g.1 then
    match PRODUCTS.lookup (String.mk (g.2.map upperChar)) with
    | some p => some ⟨p, (natOfDigits g.1 : Rat)⟩
    | none => none
  else if pyIsdigit g.2 then
    match PRODUCTS.lookup (String.mk (g.1.map upperChar)) with
    | some p => some ⟨p, (natOfDigits g.2 : Rat)⟩
    | none => none
  else none

/-- The item list built by `_basic_parse`: all matches of the three
pattern families, in pattern order, filtered through the catalog check. -/
def basicItems (msg : List Char) : List OrderItem :=
  ((findall matchQtyCode msg).filterMap matchToItem) ++
  ((findall matchCodeQty msg).filterMap matchToItem) ++
  ((findall matchFlavor msg).filterMap matchToItem)

/-! ## Exact rational arithmetic helpers

The `Mul`/`Add`/`Sub`/`Div` instances on `Rat` are irreducible to the
kernel, so the executable parts of this development use the following
equivalent operations, built from `Rat.divInt` (which normalizes and
reduces). -/

/-- Exact rational multiplication. -/
def ratMul (a b : Rat) : Rat := Rat.divInt (a.num * b.num) ((a.den : Int) * (b.den : Int))

/-- Exact rational addition. -/
def ratAdd (a b : Rat) : Rat :=
  Rat.divInt (a.num * (b.den : Int) + b.num * (a.den : Int)) ((a.den : Int) * (b.den : Int))

/-- Exact rational subtraction. -/
def ratSub (a b : Rat) : Rat := ratAdd a (Rat.neg b)

/-- Exact rational division (`b ≠ 0` in all uses). -/
def ratDiv (a b : Rat) : Rat := Rat.divInt (a.num * (b.den : Int)) ((a.den : Int) * b.num)

/-- Absolute value. -/
def ratAbs (a : Rat) : Rat := if a.num < 0 then Rat.neg a else a

/-- Sum of a list of rationals (Python `sum`). -/
def ratSum (l : List Rat) : Rat := l.foldl ratAdd 0

/-- `⌊log₂ n⌋` by structural recursion (fuel), so that it reduces in the
kernel. -/
def log2F : Nat → Nat → Nat
  | 0, _ => 0
  | fuel + 1, n => if 2 ≤ n then log2F fuel (n / 2) + 1 else 0

/-! ## Python float model

Python floats are IEEE-754 doubles; `roundToDouble q` is the exact
rational value of the double nearest to `q` (ties to even).  Overflow and
subnormal behavior are not modelled (irrelevant at the magnitudes in this
program). -/

/-- `2 ^ e` as a rational, for an integer exponent. -/
def pow2 (e : Int) : Rat :=
  if 0 ≤ e then Rat.divInt (((2 : Nat) ^ e.toNat : Nat) : Int) 1
  else Rat.divInt 1 (((2 : Nat) ^ (-e).toNat : Nat) : Int)

/-- First guess for `⌊log₂ a⌋` of a positive rational (exact up to ±1). -/
def expGuess (a : Rat) : Int :=
  (log2F a.num.natAbs a.num.natAbs : Int) - (log2F a.den a.den : Int)

/-- The exponent `e` with `2 ^ e ≤ a < 2 ^ (e+1)` for a positive rational. -/
def findExp (a : Rat) : Int :=
  let e0 := expGuess a
  if pow2 (e0 + 1) ≤ a then e0 + 1
  else if pow2 e0 ≤ a then e0
  else e0 - 1

/-- Exact value of the IEEE-754 double nearest to `q` (round to nearest,
ties to even). -/
def roundToDouble (q : Rat) : Rat :=
  if q = 0 then 0
  else
    let a := ratAbs q
    let e := findExp a
    let scale := pow2 (e - 52)
    let m := ratDiv a scale
    let n : Int := m.floor
    let frac := ratSub m (n : Rat)
    let n' : Int :=
      if Rat.divInt 1 2 < frac then n + 1
      else if frac < Rat.divInt 1 2 then n
      else if n % 2 = 0 then n else n + 1
    let mag := ratMul (n' : Rat) scale
    if q.num < 0 then Rat.neg mag else mag

/-- One correctly rounded double division (Python `a / b` on floats). -/
def flDiv (a b : Rat) : Rat := roundToDouble (ratDiv a b)

/-- One correctly rounded double multiplication (Python `a * b` where at
least one side is a float; an `int` side is first converted by the
caller). -/
def flMul (a b : Rat) : Rat := roundToDouble (ratMul a b)

/-- Python `int(f)` on a float: truncation toward zero. -/
def pyIntTrunc (q : Rat) : Int := if 0 ≤ q then q.floor else -((Rat.neg q).floor)

/-! ## JSON values (Python's dynamically typed data) -/

/-- A Python value as it can come out of `json.loads`:  `null` doubles as
Python `None` (and hence also as an absent optional field). -/
inductive JsonVal where
  | null : JsonVal
  | bool : Bool → JsonVal
  | num : Rat → JsonVal
  | str : String → JsonVal
  | arr : List JsonVal → JsonVal
  | obj : List (String × JsonVal) → JsonVal

/-- Python truthiness (`if x:`). -/
def pyTruthy : JsonVal → Bool
  | .null => false
  | .bool b => b
  | .num q => q ≠ 0
  | .str s => s ≠ ""
  | .arr xs => !xs.isEmpty
  | .obj fs => !fs.isEmpty

/-- Python `x > 0` on a JSON value: defined for numbers and booleans,
a `TypeError` (modelled as `Except.error`) otherwise. -/
def pyGtZero : JsonVal → Except Unit Bool
  | .num q => .ok (decide (q > 0))
  | .bool b => .ok b
  | _ => .error ()

/-- The numeric value of a JSON number or boolean (Python arithmetic
treats `True`/`False` as `1`/`0`). -/
def jsonNumVal : JsonVal → Rat
  | .num q => q
  | .bool b => if b then 1 else 0
  | _ => 0

/-! ## `ParsedOrder` (the `NormalizedOrder` of the specification)

Pass-through fields that Python never type-checks are stored as `JsonVal`
(with `.null` for Python `None`); fields the source always constructs
itself keep precise types. -/

/-- The `ParsedOrder` dataclass.  `customer_name`, `payment_method`,
`customer_location`, `discount_percentage`, `discount_amount` and
`shipping_fee` are `JsonVal` because `_create_order_from_json` stores
whatever the external JSON supplied for them. -/
structure ParsedOrder where
  customer_name : JsonVal
  items : List OrderItem
  total_amount : Rat
  raw_message : String
  payment_method : JsonVal
  customer_location : JsonVal
  auto_sold_by : Option String
  discount_percentage : JsonVal
  discount_amount : JsonVal
  shipping_fee : JsonVal

/-- Wrap an optional string the way the basic-parse path stores it. -/
def optStr : Option String → JsonVal
  | some s => .str s
  | none => .null

/-- Wrap an optional number the way the basic-parse path stores it. -/
def optNum : Option Rat → JsonVal
  | some q => .num q
  | none => .null

/-! ## Customer-name extraction of `_basic_parse` -/

/-- Generic leftmost `re.search`: try the anchored matcher at every
position; Python also tries the empty position at the end, where all
matchers here fail. -/
def searchPos {α : Type} (f : List Char → Option α) : List Char → Option α
  | [] => f []
  | s@(_ :: t) =>
    match f s with
    | some g => some g
    | none => searchPos f t

/-- Anchored `LIT\s+([A-Za-z\s]+)` (patterns `for`/`kay`/`from`): the
literal, one or more spaces, then the greedy name class; if the class is
empty after the maximal `\s+`, the engine backtracks one space into the
group. -/
def litSpName (lit : List Char) (s : List Char) : Option (List Char) :=
  if ciStarts lit s then
    let rest := s.drop lit.length
    let (sp, r1) := runWhile isSpaceChar rest
    if sp.isEmpty then none
    else
      let (g, _) := runWhile isNameChar r1
      if !g.isEmpty then some g
      else if 2 ≤ sp.length then some [' ']
      else none
  else none

/-- Anchored `para\s+(sa\s+)?([A-Za-z\s]+)`: returns group 2 (the source's
handler uses group 2 when present, which it always is on a match). -/
def matchPara (s : List Char) : Option (List Char) :=
  if ciStarts "para".data s then
    let rest := s.drop 4
    let (sp, r1) := runWhile isSpaceChar rest
    if sp.isEmpty then none
    else
      let withSa : Option (List Char) :=
        if ciStarts "sa".data r1 then
          let r2 := r1.drop 2
          let (sp2, r3) := runWhile isSpaceChar r2
          if sp2.isEmpty then none
          else
            let (g, _) := runWhile isNameChar r3
            if !g.isEmpty then some g
            else if 2 ≤ sp2.length then some [' ']
            else none
        else none
      match withSa with
      | some g => some g
      | none =>
        let (g, _) := runWhile isNameChar r1
        if !g.isEmpty then some g
        else if 2 ≤ sp.length then some [' ']
        else none
  else none

/-- Backtracking for `([A-Za-z\s]+)\s+ordered`: given the reversed maximal
name-class run at the match position, find the longest group prefix after
which `\s+ordered` matches. -/
def orderedSplit : List Char → List Char → Option (List Char)
  | [], _ => none
  | c :: grev, t =>
    let (sp, r) := runWhile isSpaceChar t
    if !sp.isEmpty && ciStarts "ordered".data r then some (c :: grev).reverse
    else orderedSplit grev (c :: t)

/-- Anchored `([A-Za-z\s]+)\s+ordered`. -/
def matchOrderedBy (s : List Char) : Option (List Char) :=
  let (g0, t) := runWhile isNameChar s
  if g0.isEmpty then none else orderedSplit g0.reverse t

/-- Anchored `customer:\s*([A-Za-z\s]+)`. -/
def matchCustomer (s : List Char) : Option (List Char) :=
  if ciStarts "customer:".data s then
    let rest := s.drop 9
    let (sp, r1) := runWhile isSpaceChar rest
    let (g, _) := runWhile isNameChar r1
    if !g.isEmpty then some g
    else if 1 ≤ sp.length then some [' ']
    else none
  else none

/-- The customer-name cascade of `_basic_parse`: six patterns in fixed
priority order, first match wins, result stripped and title-cased. -/
def extractName (msg : List Char) : Option String :=
  match searchPos (litSpName "for".data) msg with
  | some g => some (String.mk (pyTitle (pyStrip g)))
  | none =>
  match searchPos matchPara msg with
  | some g => some (String.mk (pyTitle (pyStrip g)))
  | none =>
  match searchPos (litSpName "kay".data) msg with
  | some g => some (String.mk (pyTitle (pyStrip g)))
  | none =>
  match searchPos (litSpName "from".data) msg with
  | some g => some (String.mk (pyTitle (pyStrip g)))
  | none =>
  match searchPos matchOrderedBy msg with
  | some g => some (String.mk (pyTitle (pyStrip g)))
  | none =>
  match searchPos matchCustomer msg with
  | some g => some (String.mk (pyTitle (pyStrip g)))
  | none => none

/-! ## Payment, location, discount, shipping detection -/

/-- Keyword-cluster test: some keyword occurs in the lowered message. -/
def anyKeyword (ks : List String) (ml : List Char) : Bool :=
  ks.any fun k => containsSub k.data ml

/-- `_detect_payment_method`: six keyword clusters in fixed priority
order. -/
def detectPaymentMethod (msg : List Char) : Option String :=
  let ml := msg.map lowerChar
  if anyKeyword ["gcash", "g-cash", "g cash"] ml then some "Gcash"
  else if anyKeyword ["bpi"] ml then some "BPI"
  else if anyKeyword ["maya", "paymaya", "pay maya"] ml then some "Maya"
  else if anyKeyword ["cash", "cod", "cash on delivery", "bayad cash"] ml then some "Cash"
  else if anyKeyword ["bdo"] ml then some "BDO"
  else if anyKeyword ["transfer", "bank", "online"] ml then some "Others"
  else none

/-- `_detect_location_and_seller`: two keyword clusters; the first hit
fixes both the location and the seller. -/
def detectLocationAndSeller (msg : List Char) : Option String × Option String :=
  let ml := msg.map lowerChar
  if anyKeyword ["quezon city", "qc", "sa qc", "galing qc",
                 "dito sa quezon city", "taga qc", "qc area"] ml then
    (some "Quezon City", some "Ferdie")
  else if anyKeyword ["paranaque", "paranañaque", "parañaque", "sa paranaque",
                      "galing paranaque", "dito sa paranaque", "taga paranaque",
                      "paranaque area"] ml then
    (some "Paranaque", some "Nina")
  else (none, none)

/-- Anchored `(\d+)%` followed by an optional-space literal tail
(`off` / `discount` / nothing). -/
def digitsPctLit (tail : List Char) (s : List Char) : Option (List Char) :=
  let (d, r) := digitRun s
  if d.isEmpty then none
  else
    match r with
    | c :: r2 =>
      if c = '%' then
        if tail.isEmpty then some d
        else if ciStartsPct tail (dropSpaces r2) then some d
        else none
      else none
    | [] => none
where
  /-- case-sensitive literal check (the search text is already lowered) -/
  ciStartsPct : List Char → List Char → Bool
    | [], _ => true
    | _ :: _, [] => false
    | p :: ps, c :: cs => p = c && ciStartsPct ps cs

/-- Anchored `(\d+)\s*off`. -/
def digitsSpOff (s : List Char) : Option (List Char) :=
  let (d, r) := digitRun s
  if d.isEmpty then none
  else if ciStarts "off".data (dropSpaces r) then some d
  else none

/-- Anchored `discount\s*(\d+)` with `pct = true` additionally requiring a
trailing `%` (`discount\s*(\d+)%`). -/
def discountDigits (pct : Bool) (s : List Char) : Option (List Char) :=
  if ciStarts "discount".data s then
    let (d, r) := digitRun (dropSpaces (s.drop 8))
    if d.isEmpty then none
    else if pct then
      match r with
      | c :: _ => if c = '%' then some d else none
      | [] => none
    else some d
  else none

/-- `_detect_discount`: six numeric patterns in fixed order over the
lowered message (every value a percentage), then the bare-keyword case
(`discount`/`diskarte`/`bawas` ↦ an explicit `0`), else no discount.
The returned amount reproduces Python's
`int(total_amount * (discount_percentage / 100))` in double precision. -/
def detectDiscount (msg : List Char) (totalAmount : Rat) : Option Rat × Option Rat :=
  let ml := msg.map lowerChar
  let found : Option (List Char) :=
    match searchPos (digitsPctLit "off".data) ml with
    | some d => some d
    | none =>
    match searchPos (digitsPctLit "discount".data) ml with
    | some d => some d
    | none =>
    match searchPos (digitsPctLit []) ml with
    | some d => some d
    | none =>
    match searchPos digitsSpOff ml with
    | some d => some d
    | none =>
    match searchPos (discountDigits true) ml with
    | some d => some d
    | none => searchPos (discountDigits false) ml
  match found with
  | some d =>
    let p := roundToDouble (natOfDigits d : Rat)
    (some p, some ((pyIntTrunc (flMul (roundToDouble totalAmount) (flDiv p 100)) : Rat)))
  | none =>
    if anyKeyword ["discount", "diskarte", "bawas"] ml then (some 0, some 0)
    else (none, none)

/-- Anchored `LIT\s*(?:fee)?\s*(\d+)` (shipping patterns with an optional
`fee`), with the backtracking of `(?:fee)?`. -/
def litFeeDigits (lit : List Char) (withFee : Bool) (s : List Char) : Option (List Char) :=
  if ciStarts lit s then
    let r1 := dropSpaces (s.drop lit.length)
    let direct :=
      let (d, _) := digitRun r1
      if d.isEmpty then none else some d
    if withFee then
      if ciStarts "fee".data r1 then
        let (d, _) := digitRun (dropSpaces (r1.drop 3))
        if d.isEmpty then direct else some d
      else direct
    else direct
  else none

/-- Anchored `(\d+)\s*LIT` (suffix shipping patterns). -/
def digitsSpLit (lit : List Char) (s : List Char) : Option (List Char) :=
  let (d, r) := digitRun s
  if d.isEmpty then none
  else if ciStarts lit (dropSpaces r) then some d
  else none

/-- Anchored `plus\s*(\d+)\s*(?:shipping|sf|delivery|padala)`. -/
def plusDigits (s : List Char) : Option (List Char) :=
  if ciStarts "plus".data s then
    let (d, r) := digitRun (dropSpaces (s.drop 4))
    if d.isEmpty then none
    else
      let r2 := dropSpaces r
      if ciStarts "shipping".data r2 || ciStarts "sf".data r2 ||
         ciStarts "delivery".data r2 || ciStarts "padala".data r2 then some d
      else none
  else none

/-- `_detect_shipping_fee`: ten patterns in fixed order over the lowered
message; the value is always an absolute peso amount. -/
def detectShippingFee (msg : List Char) : Option Rat :=
  let ml := msg.map lowerChar
  let found : Option (List Char) :=
    match searchPos (litFeeDigits "shipping".data true) ml with
    | some d => some d
    | none =>
    match searchPos (litFeeDigits "delivery".data true) ml with
    | some d => some d
    | none =>
    match searchPos (litFeeDigits "sf".data true) ml with
    | some d => some d
    | none =>
    match searchPos (litFeeDigits "padala".data false) ml with
    | some d => some d
    | none =>
    match searchPos (litFeeDigits "hatid".data false) ml with
    | some d => some d
    | none =>
    match searchPos (litFeeDigits "ship".data false) ml with
    | some d => some d
    | none =>
    match searchPos (litFeeDigits "deliver".data false) ml with
    | some d => some d
    | none =>
    match searchPos (digitsSpLit "shipping".data) ml with
    | some d => some d
    | none =>
    match searchPos (digitsSpLit "sf".data) ml with
    | some d => some d
    | none => searchPos plusDigits ml
  found.map fun d => (natOfDigits d : Rat)

/-! ## `_basic_parse` -/

/-- `_basic_parse`: the deterministic extractor.  Total function from the
raw message to a `ParsedOrder`. -/
def basicParse (raw : String) : ParsedOrder :=
  let m := raw.data
  let items := basicItems m
  let customerName := extractName m
  let total : Rat := ratSum (items.map fun it => ratMul it.quantity (it.product.price : Rat))
  let paymentMethod := detectPaymentMethod m
  let locSeller := detectLocationAndSeller m
  let disc := detectDiscount m total
  let shippingFee := detectShippingFee m
  ⟨optStr customerName, items, total, raw, optStr paymentMethod,
   optStr locSeller.1, locSeller.2, optNum disc.1, optNum disc.2,
   optNum shippingFee⟩

/-! ## The response reconciler

`_extract_and_validate_response` extracts a JSON candidate from the
untrusted external response text with three strategies and accepts it only
if it is truthy and contains `items`; every other outcome (including any
exception inside `_create_order_from_json`) falls back to `_basic_parse`
over the original message.  `json.loads` is an external library function;
it is modelled as an arbitrary parameter `loads : String → Option JsonVal`
(`none` = `json.JSONDecodeError`). -/

/-- Opening brace character (written via its code point). -/
def lbrace : Char := Char.ofNat 123

/-- Closing brace character (written via its code point). -/
def rbrace : Char := Char.ofNat 125

/-- Case-sensitive prefix test. -/
def litStarts : List Char → List Char → Bool
  | [], _ => true
  | _ :: _, [] => false
  | p :: ps, c :: cs => p = c && litStarts ps cs

/-- Index of the first occurrence of `c`, if any. -/
def firstIdx (c : Char) : List Char → Option Nat
  | [] => none
  | x :: xs => if x = c then some 0 else (firstIdx c xs).map (· + 1)

/-- Index of the last occurrence of `c`, if any. -/
def lastIdx (c : Char) (s : List Char) : Option Nat :=
  (firstIdx c s.reverse).map fun i => s.length - 1 - i

/-- Strategy 1, `re.search(r'\{.*\}', text, re.DOTALL)`: the span from the
first opening brace to the last closing brace after it. -/
def braceSpan (s : List Char) : Option (List Char) :=
  match firstIdx lbrace s, lastIdx rbrace s with
  | some i, some j => if i < j then some ((s.take (j + 1)).drop i) else none
  | _, _ => none

/-- The lazy body of strategy 2's `(\{.*?\})`: the shortest content after
which a closing brace, optional whitespace and a closing fence follow.
`crev` is the reversed content consumed so far. -/
def fencedGo : List Char → List Char → Option (List Char)
  | _, [] => none
  | crev, c :: rest =>
    if c = rbrace && litStarts "```".data (dropSpaces rest) then some crev.reverse
    else fencedGo (c :: crev) rest

/-- Strategy 2 anchored at one position:
`` ```json\s*(\{.*?\})\s*``` `` (DOTALL). -/
def fencedAt (s : List Char) : Option (List Char) :=
  if litStarts "```json".data s then
    match dropSpaces (s.drop 7) with
    | c :: t =>
      if c = lbrace then
        (fencedGo [] t).map fun content => lbrace :: (content ++ [rbrace])
      else none
    | [] => none
  else none

/-- Strategy 2, leftmost search. -/
def fencedJson (s : List Char) : Option (List Char) := searchPos fencedAt s

/-- String-level wrappers for the candidate extractors. -/
def braceSpanStr (s : String) : Option String := (braceSpan s.data).map String.mk

/-- String-level wrapper for strategy 2. -/
def fencedJsonStr (s : String) : Option String := (fencedJson s.data).map String.mk

/-- Python `data.get(key)` (default `None`): requires a dict, else the
attribute access raises. -/
def pyGet (d : JsonVal) (k : String) : Except Unit JsonVal :=
  match d with
  | .obj fs => .ok ((fs.lookup k).getD .null)
  | _ => .error ()

/-- Python `data.get(key, default)`. -/
def pyGetD (d : JsonVal) (k : String) (dflt : JsonVal) : Except Unit JsonVal :=
  match d with
  | .obj fs => .ok ((fs.lookup k).getD dflt)
  | _ => .error ()

/-- Python iteration over `data.get('items', [])`: lists yield their
elements, strings their characters (as 1-character strings), dicts their
keys; anything else raises `TypeError`. -/
def iterElems : JsonVal → Except Unit (List JsonVal)
  | .arr l => .ok l
  | .str s => .ok (s.data.map fun c => .str (String.mk [c]))
  | .obj fs => .ok (fs.map fun kv => .str kv.1)
  | _ => .error ()

/-- The item loop of `_create_order_from_json`: upper-case the product
code, check catalog membership, and keep the item only when
`quantity > 0`; unknown codes are skipped without the quantity comparison
being evaluated (Python's `and` short-circuits). -/
def jsonToItems : List JsonVal → Except Unit (List OrderItem)
  | [] => .ok []
  | d :: rest => do
    let pcv ← pyGetD d "product_code" (.str "")
    let pc ← (match pcv with
      | .str s => .ok (String.mk (s.data.map upperChar))
      | _ => .error ())
    let qv ← pyGetD d "quantity" (.num 0)
    match PRODUCTS.lookup pc with
    | some prod => do
      let pos ← pyGtZero qv
      let tail ← jsonToItems rest
      .ok (if pos then ⟨prod, jsonNumVal qv⟩ :: tail else tail)
    | none => jsonToItems rest

/-- `_create_order_from_json`: build a `ParsedOrder` from an accepted JSON
candidate.  Any Python exception (attribute/type errors on unexpected
shapes) is `Except.error`, which the caller turns into the basic-parse
fallback.  (The `confidence`/`notes` diagnostics set on the Python object
afterwards are not part of the dataclass and are not modelled.) -/
def createOrderFromJson (data : JsonVal) (raw : String) : Except Unit ParsedOrder := do
  let itemsv ← pyGetD data "items" (.arr [])
  let elems ← iterElems itemsv
  let items ← jsonToItems elems
  let total : Rat := ratSum (items.map fun it => ratMul it.quantity (it.product.price : Rat))
  let loc ← pyGet data "customer_location"
  let seller : Option String :=
    match loc with
    | .str s =>
      if s = "Quezon City" then some "Ferdie"
      else if s = "Paranaque" then some "Nina"
      else none
    | _ => none
  let name0 ← pyGet data "customer_name"
  let name ←
    (if pyTruthy name0 then
      match name0 with
      | .str s => .ok (JsonVal.str (String.mk (pyTitle (pyStrip s.data))))
      | _ => .error ()
    else .ok name0)
  let dp ← pyGet data "discount_percentage"
  let da0 ← pyGet data "discount_amount"
  let da ←
    (if pyTruthy dp && !pyTruthy da0 then
      match dp with
      | .num p =>
        .ok (JsonVal.num (pyIntTrunc (flMul (roundToDouble total) (flDiv (roundToDouble p) 100)) : Int))
      | .bool b =>
        .ok (JsonVal.num (pyIntTrunc (flMul (roundToDouble total) (flDiv (if b then 1 else 0) 100)) : Int))
      | _ => .error ()
    else .ok da0)
  let sf ← pyGet data "shipping_fee"
  let pm ← pyGet data "payment_method"
  .ok ⟨name, items, total, raw, pm, loc, seller, dp, da, sf⟩

/-- Python `'items' in json_data`: key lookup for dicts, element equality
for lists, substring test for strings, `TypeError` otherwise. -/
def pyContainsItems : JsonVal → Except Unit Bool
  | .obj fs => .ok (fs.any fun kv => kv.1 = "items")
  | .arr xs => .ok (xs.any fun v => match v with | .str s => s = "items" | _ => false)
  | .str s => .ok (containsSub "items".data s.data)
  | _ => .error ()

/-- Truthiness of the running `json_data` variable (`None` before any
strategy succeeded). -/
def optTruthy : Option JsonVal → Bool
  | some v => pyTruthy v
  | none => false

/-- `_extract_and_validate_response`, parameterized by the behavior of
`json.loads` on candidate texts (`none` = parse error).  The three
strategies update `json_data` in sequence as in the source (2 and 3 only
run while it is falsy, and keep the previous value on parse failure); the
candidate is used only if truthy and containing `items`, and every failure
path — including exceptions inside `_create_order_from_json` or the
membership test — returns `_basic_parse(original_message)`. -/
def extractAndValidate (loads : String → Option JsonVal) (responseText : String)
    (originalMessage : String) : ParsedOrder :=
  let d1 : Option JsonVal := (braceSpanStr responseText).bind loads
  let d2 : Option JsonVal :=
    if optTruthy d1 then d1
    else
      match (fencedJsonStr responseText).bind loads with
      | some v => some v
      | none => d1
  let d3 : Option JsonVal :=
    if optTruthy d2 then d2
    else
      match loads responseText with
      | some v => some v
      | none => d2
  match d3 with
  | some v =>
    if pyTruthy v then
      match pyContainsItems v with
      | .ok true =>
        match createOrderFromJson v originalMessage with
        | .ok o => o
        | .error _ => basicParse originalMessage
      | .ok false => basicParse originalMessage
      | .error _ => basicParse originalMessage
    else basicParse originalMessage
  | none => basicParse originalMessage

/-! ## The row allocator (`find_next_available_row`)

The grid snapshot is the 2-D array returned by the bounded range read
`D1:W2000`: one row per sheet row, index 0 = column D (customer name),
indices 10–13 and 16–19 = the eight product-quantity columns N,O,P,Q and
T,U,V,W.  Rows may be ragged (missing trailing cells). -/

/-- Occupancy through the customer-name cell
(`len(row)>0 and row[0] and str(row[0]).strip()`). -/
def occupiedName (row : List String) : Bool :=
  match row[0]? with
  | some cell => cell ≠ "" && !(pyStrip cell.data).isEmpty
  | none => false

/-- The indices of the eight product columns inside the `D1:W2000` range. -/
def productColumnIndices : List Nat := [10, 11, 12, 13, 16, 17, 18, 19]

/-- Occupancy through a product-quantity cell (non-blank after stripping
and not the literal `'0'`). -/
def occupiedProduct (row : List String) : Bool :=
  productColumnIndices.any fun i =>
    match row[i]? with
    | some cell =>
      cell ≠ "" && !(pyStrip cell.data).isEmpty && String.mk (pyStrip cell.data) ≠ "0"
    | none => false

/-- The scan loop: track the last (maximal) occupied row number, skipping
the header row 1. -/
def findRowAux : Nat → List (List String) → Nat → Nat
  | _, [], last => last
  | n, row :: rest, last =>
    findRowAux (n + 1) rest
      (if n = 1 then last
       else if occupiedName row || occupiedProduct row then n else last)

/-- `find_next_available_row` on a successfully read snapshot. -/
def findNextAvailableRowFrom (allData : List (List String)) : Nat :=
  findRowAux 1 allData 1 + 1

/-- `find_next_available_row`: the range read `D1:W2000` bounds the
snapshot to 2000 rows; any read failure yields the fallback constant
`526`. -/
def findNextAvailableRow (readResult : Option (List (List String))) : Nat :=
  match readResult with
  | some grid => findNextAvailableRowFrom (grid.take 2000)
  | none => 526

/-! ## The row writer (`update_order_row`)

`updates` is a Python dict keyed by column letters; assignment order is
insertion order (re-assignment keeps the original position).  The final
loop writes only truthy values, converting column letters to 1-based
indices (`AA` ↦ 27, `Z` ↦ 26, otherwise `ord - ord('A') + 1`).  Each cell
write can fail (an API exception); the enclosing `try` turns any failure
into an overall `False`. -/

/-- Python dict assignment on an association list (update in place or
append). -/
def dictSet (d : List (String × JsonVal)) (k : String) (v : JsonVal) :
    List (String × JsonVal) :=
  if d.any fun kv => kv.1 = k then
    d.map fun kv => if kv.1 = k then (k, v) else kv
  else d ++ [(k, v)]

/-- Two-digit zero padding of `strftime`. -/
def fmt2 (n : Nat) : String := if n < 10 then "0" ++ toString n else toString n

/-- `today.strftime("%m/%d/%Y")`. -/
def dateStr (m d y : Nat) : String := fmt2 m ++ "/" ++ fmt2 d ++ "/" ++ toString y

/-- The per-SKU quantity column of the fixed column contract. -/
def skuColumn (code : String) : Option String :=
  if code = "P-CHZ" then some "N"
  else if code = "P-SC" then some "O"
  else if code = "P-BBQ" then some "P"
  else if code = "P-OG" then some "Q"
  else if code = "2L-CHZ" then some "T"
  else if code = "2L-SC" then some "U"
  else if code = "2L-BBQ" then some "V"
  else if code = "2L-OG" then some "W"
  else none

/-- The item loop of `update_order_row` (an `if/elif` chain per SKU). -/
def itemUpdates (items : List OrderItem) (d : List (String × JsonVal)) :
    List (String × JsonVal) :=
  items.foldl
    (fun d it =>
      match skuColumn it.product.code with
      | some col => dictSet d col (.num it.quantity)
      | none => d)
    d

/-- The conditional `Sold By` entry
(`if parsed_order.auto_sold_by: updates['E'] = ...`; Python truthiness
makes `None` and the empty string both skip). -/
def stepSoldBy (o : ParsedOrder) (u : List (String × JsonVal)) :
    List (String × JsonVal) :=
  match o.auto_sold_by with
  | some s => if s = "" then u else dictSet u "E" (.str s)
  | none => u

/-- The conditional payment-method entry
(`if parsed_order.payment_method: updates['G'] = ...`). -/
def stepPayment (o : ParsedOrder) (u : List (String × JsonVal)) :
    List (String × JsonVal) :=
  if pyTruthy o.payment_method then dictSet u "G" o.payment_method else u

/-- The conditional discount/shipping entries
(`if value and value > 0: updates[key] = value`); the comparison raises a
`TypeError` for truthy non-numeric values. -/
def stepMoney (key : String) (v : JsonVal) (u : List (String × JsonVal)) :
    Except Unit (List (String × JsonVal)) :=
  if pyTruthy v then do
    let b ← pyGtZero v
    .ok (if b then dictSet u key v else u)
  else .ok u

/-- The `updates` dict built by `update_order_row` before the write loop;
`Except.error` models the `TypeError` raised when a junk-typed
`discount_amount`/`shipping_fee` is compared with `0`. -/
def buildUpdates (o : ParsedOrder) (dm dd dy : Nat) (timeStr : String) :
    Except Unit (List (String × JsonVal)) := do
  let u := dictSet [] "C" (.str (dateStr dm dd dy))
  let u := dictSet u "D" (if pyTruthy o.customer_name then o.customer_name else .str "Unknown")
  let u := stepSoldBy o u
  let u := dictSet u "H" (.str "Unpaid")
  let u := stepPayment o u
  let u := dictSet u "J" (.str ("🤖 " ++ timeStr))
  let u := dictSet u "K" (.str "Reserved")
  let u := itemUpdates o.items u
  let u ← stepMoney "AA" o.discount_amount u
  let u ← stepMoney "Z" o.shipping_fee u
  .ok u

/-- Column letter to 1-based column number. -/
def colNum (k : String) : Nat :=
  if k = "AA" then 27
  else if k = "Z" then 26
  else (match k.data with | c :: _ => c.toNat - 64 | [] => 0)

/-- The cells actually written for one order: the truthy entries of the
`updates` dict, addressed by row and column number. -/
def writeSet (u : List (String × JsonVal)) (row : Nat) : List (Nat × Nat × JsonVal) :=
  (u.filter fun kv => pyTruthy kv.2).map fun kv => (row, colNum kv.1, kv.2)

/-- The write loop: apply each cell write in order; a failing write raises
and aborts, and the enclosing `try` returns `False`. -/
def commitWrites (ok : Nat × Nat × JsonVal → Bool) : List (Nat × Nat × JsonVal) → Bool
  | [] => true
  | w :: ws => if ok w then commitWrites ok ws else false

/-- `update_order_row` for a connected worksheet and a given row number:
build the updates dict, then write the truthy cells one by one.  `ok`
models the success of each individual `update_cell` call. -/
def updateOrderRow (ok : Nat × Nat × JsonVal → Bool) (o : ParsedOrder) (row : Nat)
    (dm dd dy : Nat) (timeStr : String) : Bool :=
  match buildUpdates o dm dd dy timeStr with
  | .ok u => commitWrites ok (writeSet u row)
  | .error _ => false

/-! ## Specification-side definitions -/

/-- The eight per-SKU quantity column letters of the fixed column
contract. -/
def skuColsList : List String := ["N", "O", "P", "Q", "T", "U", "V", "W"]

/-- All column letters `update_order_row` can ever touch. -/
def allowedKeys : List String :=
  ["C", "D", "E", "H", "G", "J", "K", "N", "O", "P", "Q", "T", "U", "V", "W", "AA", "Z"]

/-- The specification's typing of the optional money fields of a
`NormalizedOrder` (optional integers; here: a JSON number or absent). -/
def numOrNull : JsonVal → Prop
  | .null => True
  | .num _ => True
  | _ => False

/-- A strictly positive JSON number (the condition under which
`if value and value > 0` fires for a well-typed money field). -/
def isPosNum : JsonVal → Bool
  | .num q => decide (0 < q)
  | _ => false

/-- Occupancy of a snapshot row as worded by the specification (§4.3): the
name cell is non-blank, or at least one of the eight quantity cells is
non-blank and not the literal value zero ("blank" meaning empty after
stripping whitespace, the reading under which "non-blank" is well defined
for whitespace-only cells). -/
def specOccupied (row : List String) : Prop :=
  (∃ cell, row[0]? = some cell ∧ pyStrip cell.data ≠ []) ∨
  (∃ i, i ∈ productColumnIndices ∧ ∃ cell, row[i]? = some cell ∧
    pyStrip cell.data ≠ [] ∧ String.mk (pyStrip cell.data) ≠ "0")

/-- The value of the `updates` dict for well-typed money fields, written
as one expression for lemma-friendly decomposition. -/
def buildU (o : ParsedOrder) (dm dd dy : Nat) (t : String) : List (String × JsonVal) :=
  (fun u => if isPosNum o.shipping_fee then dictSet u "Z" o.shipping_fee else u)
    ((fun u => if isPosNum o.discount_amount then dictSet u "AA" o.discount_amount else u)
      (itemUpdates o.items
        (dictSet
          (dictSet
            (stepPayment o
              (dictSet
                (stepSoldBy o
                  (dictSet
                    (dictSet [] "C" (.str (dateStr dm dd dy)))
                    "D" (if pyTruthy o.customer_name then o.customer_name else .str "Unknown")))
                "H" (.str "Unpaid")))
            "J" (.str ("🤖 " ++ t)))
          "K" (.str "Reserved"))))

/-- A concrete order used by the row-writer witnesses. -/
def wOrder : ParsedOrder :=
  ⟨.str "Ana", [⟨⟨"P-CHZ", "Cheese", "Pouch", 150⟩, 2⟩], 300, "m",
   .str "Gcash", .str "Quezon City", some "Ferdie", .null, .num 10, .num 50⟩

/-- The updates dict `update_order_row` builds for `wOrder`. -/
def wUpdates : List (String × JsonVal) :=
  [("C", .str "01/02/2026"), ("D", .str "Ana"), ("E", .str "Ferdie"),
   ("H", .str "Unpaid"), ("G", .str "Gcash"), ("J", .str "🤖 tick"),
   ("K", .str "Reserved"), ("N", .num 2), ("AA", .num 10), ("Z", .num 50)]

/-! ## Concrete instances used to exercise the JSON path -/

/-- A well-formed JSON candidate: one catalog item with quantity 2. -/
def c2data : JsonVal :=
  .obj [("items", .arr [.obj [("product_code", .str "P-CHZ"), ("quantity", .num 2)]])]

/-- The order `_create_order_from_json` builds from `c2data`. -/
def c2order : ParsedOrder :=
  ⟨.null, [⟨⟨"P-CHZ", "Cheese", "Pouch", 150⟩, 2⟩], 300, "m", .null, .null, none,
   .null, .null, .null⟩

/-- A JSON candidate carrying only a Quezon City location. -/
def c5data : JsonVal := .obj [("customer_location", .str "Quezon City")]

/-- The order `_create_order_from_json` builds from `c5data`. -/
def c5order : ParsedOrder :=
  ⟨.null, [], 0, "m", .null, .str "Quezon City", some "Ferdie", .null, .null, .null⟩

/-! ## Lemmas about the row allocator -/

theorem findRowAux_none (rows : List (List String)) (n last : Nat)
    (h : ∀ i row, rows[i]? = some row →
      n + i = 1 ∨ (occupiedName row || occupiedProduct row) = false) :
    findRowAux n rows last = last := by
  induction rows generalizing n last with
  | nil => rfl
  | cons row rest ih =>
    have h0 := h 0 row (by simp)
    have hrest : ∀ i r, rest[i]? = some r →
        (n + 1) + i = 1 ∨ (occupiedName r || occupiedProduct r) = false := by
      intro i r hr
      rcases h (i + 1) r (by simpa using hr) with h' | h'
      · left; omega
      · right; exact h'
    simp only [findRowAux]
    rcases h0 with h0 | h0
    · have hn : n = 1 := by omega
      rw [if_pos hn]
      exact ih _ _ hrest
    · by_cases hn : n = 1
      · rw [if_pos hn]; exact ih _ _ hrest
      · rw [if_neg hn, if_neg (by simp [h0])]
        exact ih _ _ hrest

theorem findRowAux_lastOcc (rows : List (List String)) (n last j : Nat) (rowj : List String)
    (hj : rows[j]? = some rowj)
    (hocc : (occupiedName rowj || occupiedProduct rowj) = true)
    (hne : n + j ≠ 1)
    (hafter : ∀ i row, rows[i]? = some row → j < i →
        n + i = 1 ∨ (occupiedName row || occupiedProduct row) = false) :
    findRowAux n rows last = n + j := by
  induction rows generalizing n last j with
  | nil => simp at hj
  | cons row rest ih =>
    simp only [findRowAux]
    cases j with
    | zero =>
      simp only [List.getElem?_cons_zero, Option.some.injEq] at hj
      subst hj
      have hn : ¬ n = 1 := by omega
      rw [if_neg hn, if_pos hocc]
      have : findRowAux (n + 1) rest n = n := by
        apply findRowAux_none
        intro i r hr
        rcases hafter (i + 1) r (by simpa using hr) (by omega) with h' | h'
        · left; omega
        · right; exact h'
      rw [this]
      omega
    | succ k =>
      have hj' : rest[k]? = some rowj := by simpa using hj
      have hne' : (n + 1) + k ≠ 1 := by omega
      have hafter' : ∀ i row, rest[i]? = some row → k < i →
          (n + 1) + i = 1 ∨ (occupiedName row || occupiedProduct row) = false := by
        intro i r hr hk
        rcases hafter (i + 1) r (by simpa using hr) (by omega) with h' | h'
        · left; omega
        · right; exact h'
      exact (ih (n + 1) _ k hj' hne' hafter').trans (by omega)

theorem findRowAux_cases (rows : List (List String)) (n last : Nat) :
    findRowAux n rows last = last ∨
      ∃ i, i < rows.length ∧ findRowAux n rows last = n + i := by
  induction rows generalizing n last with
  | nil => left; rfl
  | cons row rest ih =>
    simp only [findRowAux]
    have step : ∀ acc : Nat, (acc = last ∨ acc = n) →
        (findRowAux (n + 1) rest acc = last ∨
          ∃ i, i < (row :: rest).length ∧ findRowAux (n + 1) rest acc = n + i) := by
      intro acc hacc
      rcases ih (n + 1) acc with h | ⟨i, hi, h⟩
      · rcases hacc with rfl | rfl
        · left; exact h
        · right; exact ⟨0, by simp, h⟩
      · right
        exact ⟨i + 1, by simp [Nat.succ_lt_succ hi], by rw [h]; omega⟩
    by_cases hn : n = 1
    · rw [if_pos hn]; exact step last (Or.inl rfl)
    · rw [if_neg hn]
      by_cases hocc : (occupiedName row || occupiedProduct row) = true
      · rw [if_pos hocc]; exact step n (Or.inr rfl)
      · rw [if_neg hocc]; exact step last (Or.inl rfl)

theorem strip_ne_nil_imp (cell : String) (h : pyStrip cell.data ≠ []) : cell ≠ "" := by
  intro heq; subst heq; exact h rfl

/-- The source's row-occupancy test agrees with the specification's
wording of occupancy. -/
theorem occupied_iff_spec (row : List String) :
    (occupiedName row || occupiedProduct row) = true ↔ specOccupied row := by
  constructor
  · intro h
    rcases Bool.or_eq_true_iff.mp h with h | h
    · left
      unfold occupiedName at h
      cases hc : row[0]? with
      | none => rw [hc] at h; cases h
      | some cell =>
        rw [hc] at h
        refine ⟨cell, rfl, ?_⟩
        have h2 := (Bool.and_eq_true _ _).mp h |>.2
        intro hnil
        rw [hnil] at h2
        cases h2
    · right
      unfold occupiedProduct at h
      rcases List.any_eq_true.mp h with ⟨i, hi, hcell⟩
      refine ⟨i, hi, ?_⟩
      cases hc : row[i]? with
      | none => rw [hc] at hcell; cases hcell
      | some cell =>
        rw [hc] at hcell
        have h1 := (Bool.and_eq_true _ _).mp hcell
        have h2 := (Bool.and_eq_true _ _).mp h1.1
        refine ⟨cell, rfl, ?_, ?_⟩
        · intro hnil
          have := h2.2
          rw [hnil] at this
          cases this
        · simpa using h1.2
  · intro h
    rcases h with ⟨cell, hc, hne⟩ | ⟨i, hi, cell, hc, hne, hz⟩
    · apply Bool.or_eq_true_iff.mpr
      left
      unfold occupiedName
      rw [hc]
      refine (Bool.and_eq_true _ _).mpr ⟨?_, ?_⟩
      · simpa using strip_ne_nil_imp cell hne
      · cases hp : pyStrip cell.data with
        | nil => exact absurd hp hne
        | cons a l => simp [hp]
    · apply Bool.or_eq_true_iff.mpr
      right
      unfold occupiedProduct
      refine List.any_eq_true.mpr ⟨i, hi, ?_⟩
      rw [hc]
      refine (Bool.and_eq_true _ _).mpr ⟨(Bool.and_eq_true _ _).mpr ⟨?_, ?_⟩, by simpa using hz⟩
      · simpa using strip_ne_nil_imp cell hne
      · cases hp : pyStrip cell.data with
        | nil => exact absurd hp hne
        | cons a l => simp [hp]

/-! ## Claim theorems -/

/-- Claim C7: on every snapshot whose highest occupied row (header row 1
always skipped; occupied = non-blank name cell or a non-blank, non-zero
quantity cell) is row `R`, the row allocator returns `R + 1`; on a
snapshot with no occupied row beyond the header it returns `2`. -/
theorem claim7_row_allocator :
    (∀ g R, 2 ≤ R →
      (∃ row, g[R - 1]? = some row ∧ specOccupied row) →
      (∀ r row, g[r - 1]? = some row → 2 ≤ r → specOccupied row → r ≤ R) →
      findNextAvailableRowFrom g = R + 1) ∧
    (∀ g, (∀ r row, g[r - 1]? = some row → 2 ≤ r → ¬ specOccupied row) →
      findNextAvailableRowFrom g = 2) := by
  constructor
  · intro g R hR hex hmax
    obtain ⟨rowR, hrow, hocc⟩ := hex
    unfold findNextAvailableRowFrom
    have : findRowAux 1 g 1 = 1 + (R - 1) := by
      apply findRowAux_lastOcc g 1 1 (R - 1) rowR hrow
      · exact (occupied_iff_spec rowR).mpr hocc
      · omega
      · intro i row hi hgt
        by_cases hsp : specOccupied row
        · have := hmax (i + 1) row (by simpa using hi) (by omega) hsp
          omega
        · right
          have := (occupied_iff_spec row).not.mpr hsp
          simpa using this
    rw [this]
    omega
  · intro g hnone
    unfold findNextAvailableRowFrom
    have : findRowAux 1 g 1 = 1 := by
      apply findRowAux_none
      intro i row hi
      cases i with
      | zero => left; rfl
      | succ k =>
        right
        have := hnone (k + 2) row (by simpa using hi) (by omega)
        have h2 := (occupied_iff_spec row).not.mpr this
        simpa using h2
    rw [this]

/-- Witness for C7: a concrete grid whose highest occupied row is 2 yields
3, and a header-only grid yields 2. -/
theorem claim7_row_allocator_witness :
    findNextAvailableRowFrom [[""], ["Alice"]] = 3 ∧
    findNextAvailableRowFrom [[""]] = 2 := by
  constructor
  · apply claim7_row_allocator.1 [[""], ["Alice"]] 2 (by norm_num)
    · exact ⟨["Alice"], rfl, Or.inl ⟨"Alice", rfl, by decide⟩⟩
    · intro r row h h2 _
      by_contra hgt
      have h3 : (3 : Nat) ≤ r := by omega
      have : ([[""], ["Alice"]] : List (List String))[r - 1]? = none := by
        apply List.getElem?_eq_none
        simp only [List.length_cons, List.length_nil]
        omega
      rw [this] at h
      cases h
  · apply claim7_row_allocator.2
    intro r row h h2
    by_contra _
    have : ([[""]] : List (List String))[r - 1]? = none := by
      apply List.getElem?_eq_none
      simp only [List.length_cons, List.length_nil]
      omega
    rw [this] at h
    cases h

/-- Claim C10: the allocator's scan is windowed to rows 1..2000 by the
`D1:W2000` range read, so a successful scan always returns a row between
2 and 2001 regardless of the grid's real size, and any read failure
returns the constant 526. -/
theorem claim10_row_allocator_bounds :
    (∀ g : List (List String), 2 ≤ findNextAvailableRow (some g) ∧
      findNextAvailableRow (some g) ≤ 2001) ∧
    findNextAvailableRow none = 526 := by
  constructor
  · intro g
    simp only [findNextAvailableRow]
    unfold findNextAvailableRowFrom
    rcases findRowAux_cases (g.take 2000) 1 1 with h | ⟨i, hi, h⟩
    · rw [h]; omega
    · rw [h]
      have : (g.take 2000).length ≤ 2000 := by
        simp [List.length_take_le]
      omega
  · rfl

/-- Claim C3 (code-bug evaluation): on the end-to-end scenario-A input
the deterministic extractor produces an empty item list and total 0 —
the flavor-keyword pattern family matches (`cheese` … `1`) but its
matches are always discarded because flavor words upper-case to
`CHEESE`/`BBQ`/… which are not catalog codes — while the name, payment,
location and seller come out as the specification says. -/
theorem claim3_scenario_a_eval :
    (basicParse "2 cheese pouches and 1 BBQ tub for Maria, gcash, QC").items = [] ∧
    (basicParse "2 cheese pouches and 1 BBQ tub for Maria, gcash, QC").total_amount = 0 ∧
    (basicParse "2 cheese pouches and 1 BBQ tub for Maria, gcash, QC").customer_name =
      .str "Maria" ∧
    (basicParse "2 cheese pouches and 1 BBQ tub for Maria, gcash, QC").payment_method =
      .str "Gcash" ∧
    (basicParse "2 cheese pouches and 1 BBQ tub for Maria, gcash, QC").customer_location =
      .str "Quezon City" ∧
    (basicParse "2 cheese pouches and 1 BBQ tub for Maria, gcash, QC").auto_sold_by =
      some "Ferdie" ∧
    findall matchFlavor "2 cheese pouches and 1 BBQ tub for Maria, gcash, QC".data ≠ [] :=
  ⟨rfl, rfl, rfl, rfl, rfl, rfl, by decide⟩

/-! ## Lemmas about the updates dict and the write loop -/

theorem bool_eq_false {b : Bool} (h : ¬ b = true) : b = false := by
  cases b
  · rfl
  · exact absurd rfl h

theorem mem_dictSet {d : List (String × JsonVal)} {k0 : String} {v0 : JsonVal}
    {kv : String × JsonVal} (h : kv ∈ dictSet d k0 v0) :
    kv ∈ d ∨ kv = (k0, v0) := by
  unfold dictSet at h
  split at h
  · rcases List.mem_map.mp h with ⟨kv', hkv', heq⟩
    by_cases hk : kv'.1 = k0
    · rw [if_pos hk] at heq
      right; exact heq.symm
    · rw [if_neg hk] at heq
      left; exact heq ▸ hkv'
  · rcases List.mem_append.mp h with h | h
    · left; exact h
    · right; simpa using h

theorem lookup_cons (a : String) (kv : String × JsonVal) (es : List (String × JsonVal)) :
    ((kv :: es).lookup a) = if a = kv.1 then some kv.2 else es.lookup a := by
  rcases kv with ⟨k, v⟩
  rw [List.lookup]
  by_cases h : a = k
  · have hb : (a == k) = true := by simp [h]
    rw [hb, if_pos h]
  · have hb : (a == k) = false := by simp [h]
    rw [hb, if_neg h]

theorem lookup_map_set (d : List (String × JsonVal)) (k : String) (v : JsonVal) :
    (d.map fun kv => if kv.1 = k then (k, v) else kv).lookup k =
      if (d.any fun kv => kv.1 = k) then some v else none := by
  induction d with
  | nil => simp [List.lookup]
  | cons kv rest ih =>
    rw [List.map_cons, List.any_cons]
    by_cases hk : kv.1 = k
    · rw [if_pos hk, lookup_cons]
      have ht : k = ((k, v) : String × JsonVal).1 := rfl
      rw [if_pos ht]
      have hd : (decide (kv.1 = k) || rest.any fun kv => decide (kv.1 = k)) = true := by
        simp [hk]
      rw [hd]
      rfl
    · rw [if_neg hk, lookup_cons, if_neg (fun h => hk h.symm), ih]
      have hd : (decide (kv.1 = k) || rest.any fun kv => decide (kv.1 = k)) =
          (rest.any fun kv => decide (kv.1 = k)) := by
        simp [hk]
      rw [hd]

theorem lookup_map_ne (d : List (String × JsonVal)) (k0 : String) (v0 : JsonVal)
    (k : String) (h : k ≠ k0) :
    (d.map fun kv => if kv.1 = k0 then (k0, v0) else kv).lookup k = d.lookup k := by
  induction d with
  | nil => simp
  | cons kv rest ih =>
    rw [List.map_cons, lookup_cons]
    by_cases hk : kv.1 = k0
    · rw [if_pos hk, lookup_cons, if_neg (by simpa using h), if_neg (by rw [hk]; simpa using h)]
      exact ih
    · rw [if_neg hk, lookup_cons]
      by_cases hkk : k = kv.1
      · rw [if_pos hkk, if_pos hkk]
      · rw [if_neg hkk, if_neg hkk]
        exact ih

theorem lookup_append_ne (d : List (String × JsonVal)) (k0 : String) (v0 : JsonVal)
    (k : String) (h : k ≠ k0) :
    (d ++ [(k0, v0)]).lookup k = d.lookup k := by
  induction d with
  | nil =>
    rw [List.nil_append, lookup_cons, if_neg (by simpa using h)]
  | cons kv rest ih =>
    rw [List.cons_append, lookup_cons, lookup_cons]
    by_cases hkk : k = kv.1
    · rw [if_pos hkk, if_pos hkk]
    · rw [if_neg hkk, if_neg hkk]
      exact ih

theorem lookup_append_new (d : List (String × JsonVal)) (k : String) (v : JsonVal)
    (h : (d.any fun kv => kv.1 = k) = false) :
    (d ++ [(k, v)]).lookup k = some v := by
  induction d with
  | nil => simp [List.lookup]
  | cons kv rest ih =>
    simp only [List.any_cons, Bool.or_eq_false_iff, decide_eq_false_iff_not] at h
    rw [List.cons_append, lookup_cons, if_neg (fun heq => h.1 heq.symm)]
    exact ih h.2

theorem dictSet_lookup_eq (d : List (String × JsonVal)) (k : String) (v : JsonVal) :
    (dictSet d k v).lookup k = some v := by
  unfold dictSet
  split
  · rename_i hany
    rw [lookup_map_set, if_pos hany]
  · rename_i hany
    exact lookup_append_new d k v (bool_eq_false hany)

theorem dictSet_lookup_ne (d : List (String × JsonVal)) (k0 : String) (v0 : JsonVal)
    (k : String) (h : k ≠ k0) :
    (dictSet d k0 v0).lookup k = d.lookup k := by
  unfold dictSet
  split
  · exact lookup_map_ne d k0 v0 k h
  · exact lookup_append_ne d k0 v0 k h

theorem lookup_mem {l : List (String × JsonVal)} {k : String} {v : JsonVal}
    (h : l.lookup k = some v) : (k, v) ∈ l := by
  induction l with
  | nil => simp [List.lookup] at h
  | cons kv rest ih =>
    rw [lookup_cons] at h
    by_cases hk : k = kv.1
    · rw [if_pos hk] at h
      simp only [Option.some.injEq] at h
      have he : (k, v) = kv := by
        rcases kv with ⟨a, b⟩
        simp only at hk h
        rw [hk, h]
      rw [he]
      exact List.mem_cons_self _ _
    · rw [if_neg hk] at h
      exact List.mem_cons_of_mem _ (ih h)

theorem skuColumn_mem {c col : String} (h : skuColumn c = some col) :
    col ∈ skuColsList := by
  unfold skuColumn at h
  split_ifs at h <;> simp_all [skuColsList]

theorem itemUpdates_lookup_ne (items : List OrderItem) (d : List (String × JsonVal))
    (k : String) (hk : k ∉ skuColsList) :
    (itemUpdates items d).lookup k = d.lookup k := by
  induction items generalizing d with
  | nil => rfl
  | cons it rest ih =>
    have h0 : itemUpdates (it :: rest) d = itemUpdates rest
        (match skuColumn it.product.code with
          | some col => dictSet d col (.num it.quantity)
          | none => d) := rfl
    rw [h0]
    cases hc : skuColumn it.product.code with
    | none => exact ih d
    | some col =>
      exact (ih _).trans (dictSet_lookup_ne d col _ k (fun he => hk (he ▸ skuColumn_mem hc)))

theorem mem_itemUpdates {items : List OrderItem} {d : List (String × JsonVal)}
    {kv : String × JsonVal} (h : kv ∈ itemUpdates items d) :
    kv ∈ d ∨ ∃ it ∈ items, skuColumn it.product.code = some kv.1 := by
  induction items generalizing d with
  | nil => left; exact h
  | cons it rest ih =>
    have h' : kv ∈ itemUpdates rest (match skuColumn it.product.code with
        | some col => dictSet d col (.num it.quantity)
        | none => d) := h
    rcases ih h' with hd | ⟨it', hit', hcol⟩
    · cases hc : skuColumn it.product.code with
      | none =>
        rw [hc] at hd
        left; exact hd
      | some col =>
        rw [hc] at hd
        rcases mem_dictSet hd with hd | hd
        · left; exact hd
        · right
          refine ⟨it, List.mem_cons_self _ _, ?_⟩
          rw [hc, hd]
    · right; exact ⟨it', List.mem_cons_of_mem _ hit', hcol⟩

theorem commitWrites_iff (ok : Nat × Nat × JsonVal → Bool) (l : List (Nat × Nat × JsonVal)) :
    commitWrites ok l = true ↔ ∀ w ∈ l, ok w = true := by
  induction l with
  | nil => simp [commitWrites]
  | cons w ws ih =>
    unfold commitWrites
    by_cases hw : ok w = true
    · rw [if_pos hw, ih]
      constructor
      · intro h w' hw'
        rcases List.mem_cons.mp hw' with rfl | hw'
        · exact hw
        · exact h w' hw'
      · intro h w' hw'
        exact h w' (List.mem_cons_of_mem _ hw')
    · rw [if_neg hw]
      constructor
      · intro h; cases h
      · intro h
        exact absurd (h w (List.mem_cons_self _ _)) hw

/-- Claim C9: `update_order_row`'s commit reports success exactly when
every individual cell write in the write-set succeeds; a failing write
aborts the loop and surfaces as an overall failure, never as a silent
partial success. -/
theorem claim9_commit_aggregate :
    ∀ (ok : Nat × Nat × JsonVal → Bool) (o : ParsedOrder) (row dm dd dy : Nat)
      (t : String) (u : List (String × JsonVal)),
      buildUpdates o dm dd dy t = .ok u →
      (updateOrderRow ok o row dm dd dy t = true ↔
        ∀ w ∈ writeSet u row, ok w = true) := by
  intro ok o row dm dd dy t u hu
  unfold updateOrderRow
  rw [hu]
  exact commitWrites_iff ok (writeSet u row)

/-- Witness for C9 at a concrete empty order and an all-succeeding write
oracle. -/
theorem claim9_commit_aggregate_witness :
    updateOrderRow (fun _ => true)
      ⟨.null, [], 0, "m", .null, .null, none, .null, .null, .null⟩ 5 1 2 2026 "tick" = true := by
  refine (claim9_commit_aggregate (fun _ => true)
      ⟨.null, [], 0, "m", .null, .null, none, .null, .null, .null⟩ 5 1 2 2026 "tick"
      [("C", .str "01/02/2026"), ("D", .str "Unknown"), ("H", .str "Unpaid"),
       ("J", .str "🤖 tick"), ("K", .str "Reserved")] rfl).mpr ?_
  intro w _
  rfl

/-- Claim C6 (code-bug evaluation): on `"1 P-CHZ po 82% off"` the
pre-discount total is 150 and the detected percentage 82, but the
float arithmetic `int(150 * (82/100))` yields 122, one less than
`floor(150 * 82 / 100) = 123` required by the specification. -/
theorem claim6_discount_float_eval :
    (basicParse "1 P-CHZ po 82% off").total_amount = 150 ∧
    (basicParse "1 P-CHZ po 82% off").discount_percentage = .num 82 ∧
    (basicParse "1 P-CHZ po 82% off").discount_amount = .num 122 ∧
    ((150 * 82 : Int) / 100 : Int) = 123 :=
  ⟨rfl, rfl, rfl, rfl⟩

theorem stepMoney_eq {v : JsonVal} (hv : numOrNull v) (key : String)
    (u : List (String × JsonVal)) :
    stepMoney key v u = .ok (if isPosNum v then dictSet u key v else u) := by
  cases v with
  | null => rfl
  | num q =>
    by_cases hq : q = 0
    · subst hq
      simp [stepMoney, pyTruthy, isPosNum]
    · unfold stepMoney
      rw [if_pos (by simpa [pyTruthy] using hq)]
      rfl
  | bool b => exact absurd hv (by simp [numOrNull])
  | str s => exact absurd hv (by simp [numOrNull])
  | arr l => exact absurd hv (by simp [numOrNull])
  | obj l => exact absurd hv (by simp [numOrNull])

theorem buildUpdates_eq (o : ParsedOrder) (dm dd dy : Nat) (t : String)
    (hda : numOrNull o.discount_amount) (hsf : numOrNull o.shipping_fee) :
    buildUpdates o dm dd dy t = .ok (buildU o dm dd dy t) := by
  unfold buildUpdates buildU
  simp only [stepMoney_eq hda, stepMoney_eq hsf]
  rfl

theorem stepSoldBy_lookup_ne (o : ParsedOrder) (u : List (String × JsonVal))
    (k : String) (h : k ≠ "E") :
    (stepSoldBy o u).lookup k = u.lookup k := by
  unfold stepSoldBy
  cases o.auto_sold_by with
  | none => rfl
  | some s =>
    show ((if s = "" then u else dictSet u "E" (.str s)).lookup k) = u.lookup k
    by_cases hs : s = ""
    · rw [if_pos hs]
    · rw [if_neg hs]
      exact dictSet_lookup_ne u "E" _ k h

theorem mem_stepSoldBy {o : ParsedOrder} {u : List (String × JsonVal)}
    {kv : String × JsonVal} (h : kv ∈ stepSoldBy o u) :
    kv ∈ u ∨ ∃ s, o.auto_sold_by = some s ∧ s ≠ "" ∧ kv = ("E", .str s) := by
  unfold stepSoldBy at h
  cases hs : o.auto_sold_by with
  | none => rw [hs] at h; left; exact h
  | some s =>
    rw [hs] at h
    have h' : kv ∈ (if s = "" then u else dictSet u "E" (.str s)) := h
    by_cases he : s = ""
    · rw [if_pos he] at h'; left; exact h'
    · rw [if_neg he] at h'
      rcases mem_dictSet h' with h' | h'
      · left; exact h'
      · right; exact ⟨s, rfl, he, h'⟩

theorem stepPayment_lookup_ne (o : ParsedOrder) (u : List (String × JsonVal))
    (k : String) (h : k ≠ "G") :
    (stepPayment o u).lookup k = u.lookup k := by
  unfold stepPayment
  by_cases hp : pyTruthy o.payment_method = true
  · rw [if_pos hp]
    exact dictSet_lookup_ne u "G" _ k h
  · rw [if_neg hp]

theorem mem_stepPayment {o : ParsedOrder} {u : List (String × JsonVal)}
    {kv : String × JsonVal} (h : kv ∈ stepPayment o u) :
    kv ∈ u ∨ (pyTruthy o.payment_method = true ∧ kv = ("G", o.payment_method)) := by
  unfold stepPayment at h
  by_cases hp : pyTruthy o.payment_method = true
  · rw [if_pos hp] at h
    rcases mem_dictSet h with h | h
    · left; exact h
    · right; exact ⟨hp, h⟩
  · rw [if_neg hp] at h
    left; exact h

theorem ifSet_lookup_ne (b : Bool) (u : List (String × JsonVal)) (key : String)
    (v : JsonVal) (k : String) (h : k ≠ key) :
    ((if b then dictSet u key v else u).lookup k) = u.lookup k := by
  cases b
  · rfl
  · exact dictSet_lookup_ne u key v k h

theorem mem_ifSet {b : Bool} {u : List (String × JsonVal)} {key : String}
    {v : JsonVal} {kv : String × JsonVal}
    (h : kv ∈ (if b then dictSet u key v else u)) :
    kv ∈ u ∨ (b = true ∧ kv = (key, v)) := by
  cases b
  · left; exact h
  · rcases mem_dictSet h with h | h
    · left; exact h
    · right; exact ⟨rfl, h⟩

theorem mem_buildU {o : ParsedOrder} {dm dd dy : Nat} {t : String}
    {kv : String × JsonVal} (h : kv ∈ buildU o dm dd dy t) :
    kv = ("C", .str (dateStr dm dd dy)) ∨
    kv = ("D", if pyTruthy o.customer_name then o.customer_name else .str "Unknown") ∨
    (∃ s, o.auto_sold_by = some s ∧ s ≠ "" ∧ kv = ("E", .str s)) ∨
    kv = ("H", .str "Unpaid") ∨
    (pyTruthy o.payment_method = true ∧ kv = ("G", o.payment_method)) ∨
    kv = ("J", .str ("🤖 " ++ t)) ∨
    kv = ("K", .str "Reserved") ∨
    (kv.1 ∈ skuColsList ∧ ∃ it ∈ o.items, skuColumn it.product.code = some kv.1) ∨
    (isPosNum o.discount_amount = true ∧ kv = ("AA", o.discount_amount)) ∨
    (isPosNum o.shipping_fee = true ∧ kv = ("Z", o.shipping_fee)) := by
  unfold buildU at h
  rcases mem_ifSet h with h | ⟨hb, rfl⟩
  · rcases mem_ifSet h with h | ⟨hb, rfl⟩
    · rcases mem_itemUpdates h with h | ⟨it, hit, hcol⟩
      · rcases mem_dictSet h with h | rfl
        · rcases mem_dictSet h with h | rfl
          · rcases mem_stepPayment h with h | hg
            · rcases mem_dictSet h with h | rfl
              · rcases mem_stepSoldBy h with h | he
                · rcases mem_dictSet h with h | rfl
                  · rcases mem_dictSet h with h | rfl
                    · cases h
                    · left; rfl
                  · right; left; rfl
                · right; right; left; exact he
              · right; right; right; left; rfl
            · right; right; right; right; left; exact hg
          · right; right; right; right; right; left; rfl
        · right; right; right; right; right; right; left; rfl
      · right; right; right; right; right; right; right; left
        exact ⟨skuColumn_mem hcol, it, hit, hcol⟩
    · right; right; right; right; right; right; right; right; left
      exact ⟨hb, rfl⟩
  · right; right; right; right; right; right; right; right; right
    exact ⟨hb, rfl⟩

theorem buildU_lookup_C (o : ParsedOrder) (dm dd dy : Nat) (t : String) :
    (buildU o dm dd dy t).lookup "C" = some (.str (dateStr dm dd dy)) := by
  unfold buildU
  rw [ifSet_lookup_ne _ _ _ _ _ (by decide), ifSet_lookup_ne _ _ _ _ _ (by decide),
    itemUpdates_lookup_ne _ _ _ (by decide), dictSet_lookup_ne _ _ _ _ (by decide),
    dictSet_lookup_ne _ _ _ _ (by decide), stepPayment_lookup_ne _ _ _ (by decide),
    dictSet_lookup_ne _ _ _ _ (by decide), stepSoldBy_lookup_ne _ _ _ (by decide),
    dictSet_lookup_ne _ _ _ _ (by decide), dictSet_lookup_eq]

theorem buildU_lookup_D (o : ParsedOrder) (dm dd dy : Nat) (t : String) :
    (buildU o dm dd dy t).lookup "D" =
      some (if pyTruthy o.customer_name then o.customer_name else .str "Unknown") := by
  unfold buildU
  rw [ifSet_lookup_ne _ _ _ _ _ (by decide), ifSet_lookup_ne _ _ _ _ _ (by decide),
    itemUpdates_lookup_ne _ _ _ (by decide), dictSet_lookup_ne _ _ _ _ (by decide),
    dictSet_lookup_ne _ _ _ _ (by decide), stepPayment_lookup_ne _ _ _ (by decide),
    dictSet_lookup_ne _ _ _ _ (by decide), stepSoldBy_lookup_ne _ _ _ (by decide),
    dictSet_lookup_eq]

theorem buildU_lookup_H (o : ParsedOrder) (dm dd dy : Nat) (t : String) :
    (buildU o dm dd dy t).lookup "H" = some (.str "Unpaid") := by
  unfold buildU
  rw [ifSet_lookup_ne _ _ _ _ _ (by decide), ifSet_lookup_ne _ _ _ _ _ (by decide),
    itemUpdates_lookup_ne _ _ _ (by decide), dictSet_lookup_ne _ _ _ _ (by decide),
    dictSet_lookup_ne _ _ _ _ (by decide), stepPayment_lookup_ne _ _ _ (by decide),
    dictSet_lookup_eq]

theorem buildU_lookup_J (o : ParsedOrder) (dm dd dy : Nat) (t : String) :
    (buildU o dm dd dy t).lookup "J" = some (.str ("🤖 " ++ t)) := by
  unfold buildU
  rw [ifSet_lookup_ne _ _ _ _ _ (by decide), ifSet_lookup_ne _ _ _ _ _ (by decide),
    itemUpdates_lookup_ne _ _ _ (by decide), dictSet_lookup_ne _ _ _ _ (by decide),
    dictSet_lookup_eq]

theorem buildU_lookup_K (o : ParsedOrder) (dm dd dy : Nat) (t : String) :
    (buildU o dm dd dy t).lookup "K" = some (.str "Reserved") := by
  unfold buildU
  rw [ifSet_lookup_ne _ _ _ _ _ (by decide), ifSet_lookup_ne _ _ _ _ _ (by decide),
    itemUpdates_lookup_ne _ _ _ (by decide), dictSet_lookup_eq]

theorem mem_writeSet_of_lookup {u : List (String × JsonVal)} {k : String} {v : JsonVal}
    (row : Nat) (h : u.lookup k = some v) (ht : pyTruthy v = true) :
    (row, colNum k, v) ∈ writeSet u row := by
  unfold writeSet
  exact List.mem_map.mpr ⟨(k, v), List.mem_filter.mpr ⟨lookup_mem h, ht⟩, rfl⟩

theorem of_mem_writeSet {u : List (String × JsonVal)} {row : Nat}
    {w : Nat × Nat × JsonVal} (h : w ∈ writeSet u row) :
    ∃ kv, kv ∈ u ∧ pyTruthy kv.2 = true ∧ w = (row, colNum kv.1, kv.2) := by
  unfold writeSet at h
  rcases List.mem_map.mp h with ⟨kv, hkv, heq⟩
  exact ⟨kv, (List.mem_filter.mp hkv).1, (List.mem_filter.mp hkv).2, heq.symm⟩

theorem dateStr_ne_empty (dm dd dy : Nat) : dateStr dm dd dy ≠ "" := by
  unfold dateStr
  intro he
  have h0 : (fmt2 dm ++ "/" ++ fmt2 dd ++ "/" ++ toString dy).length = 0 := by
    rw [he]; rfl
  simp only [String.length_append] at h0
  rw [show ("/" : String).length = 1 from rfl] at h0
  omega

theorem note_ne_empty (t : String) : ("🤖 " ++ t : String) ≠ "" := by
  intro he
  have h0 : ("🤖 " ++ t : String).length = 0 := by rw [he]; rfl
  rw [String.length_append, show ("🤖 " : String).length = 2 from rfl] at h0
  omega

theorem isPosNum_elim {v : JsonVal} (h : isPosNum v = true) :
    ∃ q : Rat, v = .num q ∧ 0 < q := by
  cases v with
  | num q => exact ⟨q, rfl, by simpa [isPosNum] using h⟩
  | null => simp [isPosNum] at h
  | bool b => simp [isPosNum] at h
  | str s => simp [isPosNum] at h
  | arr l => simp [isPosNum] at h
  | obj l => simp [isPosNum] at h

theorem skuCol_colNum {k : String} (h : k ∈ skuColsList) :
    colNum k ∈ ([14, 15, 16, 17, 20, 21, 22, 23] : List Nat) := by
  fin_cases h <;> decide

/-- Claim C8: the row writer's write-set never contains a cell whose
source value is absent or falsy — the date, customer name (`"Unknown"`
when absent), `"Unpaid"` status, timestamped note and `"Reserved"` tag are
always written; the soldBy cell only when a seller is assigned; the
payment cell only when a method was detected; a per-SKU quantity column
only for SKUs present in the item list; the shipping and discount cells
only when positive; and no cell outside the fixed column contract is ever
touched. -/
theorem claim8_write_set :
    ∀ (o : ParsedOrder) (dm dd dy : Nat) (t : String) (u : List (String × JsonVal)) (row : Nat),
      numOrNull o.discount_amount → numOrNull o.shipping_fee →
      buildUpdates o dm dd dy t = .ok u →
      ((row, 3, JsonVal.str (dateStr dm dd dy)) ∈ writeSet u row ∧
       (row, 4, if pyTruthy o.customer_name then o.customer_name else .str "Unknown") ∈
         writeSet u row ∧
       (row, 8, JsonVal.str "Unpaid") ∈ writeSet u row ∧
       (row, 10, JsonVal.str ("🤖 " ++ t)) ∈ writeSet u row ∧
       (row, 11, JsonVal.str "Reserved") ∈ writeSet u row ∧
       (∀ w ∈ writeSet u row, pyTruthy w.2.2 = true) ∧
       (∀ v, (row, 5, v) ∈ writeSet u row → ∃ s, o.auto_sold_by = some s ∧ v = .str s) ∧
       (∀ v, (row, 7, v) ∈ writeSet u row →
         v = o.payment_method ∧ pyTruthy o.payment_method = true) ∧
       (∀ c v, (row, c, v) ∈ writeSet u row → c ∈ ([14, 15, 16, 17, 20, 21, 22, 23] : List Nat) →
         ∃ it ∈ o.items, ∃ col, skuColumn it.product.code = some col ∧ colNum col = c) ∧
       (∀ v, (row, 26, v) ∈ writeSet u row →
         ∃ q : Rat, o.shipping_fee = .num q ∧ 0 < q ∧ v = .num q) ∧
       (∀ v, (row, 27, v) ∈ writeSet u row →
         ∃ q : Rat, o.discount_amount = .num q ∧ 0 < q ∧ v = .num q) ∧
       (∀ w ∈ writeSet u row, w.1 = row ∧
         w.2.1 ∈ ([3, 4, 5, 7, 8, 10, 11, 14, 15, 16, 17, 20, 21, 22, 23, 26, 27] : List Nat))) := by
  intro o dm dd dy t u row hda hsf hu
  have hu2 := (buildUpdates_eq o dm dd dy t hda hsf).symm.trans hu
  have hue : buildU o dm dd dy t = u := by
    injection hu2
  subst hue
  set U := buildU o dm dd dy t with hU
  have hD : pyTruthy (if pyTruthy o.customer_name then o.customer_name else .str "Unknown") = true := by
    by_cases hn : pyTruthy o.customer_name = true
    · rw [if_pos hn]; exact hn
    · rw [if_neg hn]; decide
  refine ⟨?_, ?_, ?_, ?_, ?_, ?_, ?_, ?_, ?_, ?_, ?_, ?_⟩
  · have := mem_writeSet_of_lookup row (buildU_lookup_C o dm dd dy t)
      (by simpa [pyTruthy] using dateStr_ne_empty dm dd dy)
    simpa [colNum] using this
  · have := mem_writeSet_of_lookup row (buildU_lookup_D o dm dd dy t) hD
    simpa [colNum] using this
  · have := mem_writeSet_of_lookup row (buildU_lookup_H o dm dd dy t) (by decide)
    simpa [colNum] using this
  · have := mem_writeSet_of_lookup row (buildU_lookup_J o dm dd dy t)
      (by simpa [pyTruthy] using note_ne_empty t)
    simpa [colNum] using this
  · have := mem_writeSet_of_lookup row (buildU_lookup_K o dm dd dy t) (by decide)
    simpa [colNum] using this
  · intro w hw
    rcases of_mem_writeSet hw with ⟨kv, _, ht, rfl⟩
    exact ht
  · intro v hv
    rcases of_mem_writeSet hv with ⟨kv, hmem, ht, heq⟩
    have hcol : colNum kv.1 = 5 := by
      have := congrArg (fun w => w.2.1) heq
      simpa using this.symm
    have hval : v = kv.2 := by
      have := congrArg (fun w => w.2.2) heq
      simpa using this
    rcases mem_buildU hmem with h | h | ⟨s, hs, hne, h⟩ | h | ⟨_, h⟩ | h | h |
        ⟨hsku, _⟩ | ⟨_, h⟩ | ⟨_, h⟩
    · rw [h] at hcol; simp [colNum] at hcol
    · rw [h] at hcol; simp [colNum] at hcol
    · exact ⟨s, hs, by rw [hval, h]⟩
    · rw [h] at hcol; simp [colNum] at hcol
    · rw [h] at hcol; simp [colNum] at hcol
    · rw [h] at hcol; simp [colNum] at hcol
    · rw [h] at hcol; simp [colNum] at hcol
    · have := skuCol_colNum hsku
      rw [hcol] at this
      simp at this
    · rw [h] at hcol; simp [colNum] at hcol
    · rw [h] at hcol; simp [colNum] at hcol
  · intro v hv
    rcases of_mem_writeSet hv with ⟨kv, hmem, ht, heq⟩
    have hcol : colNum kv.1 = 7 := by
      have := congrArg (fun w => w.2.1) heq
      simpa using this.symm
    have hval : v = kv.2 := by
      have := congrArg (fun w => w.2.2) heq
      simpa using this
    rcases mem_buildU hmem with h | h | ⟨s, hs, hne, h⟩ | h | ⟨hg, h⟩ | h | h |
        ⟨hsku, _⟩ | ⟨_, h⟩ | ⟨_, h⟩
    · rw [h] at hcol; simp [colNum] at hcol
    · rw [h] at hcol; simp [colNum] at hcol
    · rw [h] at hcol; simp [colNum] at hcol
    · rw [h] at hcol; simp [colNum] at hcol
    · exact ⟨by rw [hval, h], hg⟩
    · rw [h] at hcol; simp [colNum] at hcol
    · rw [h] at hcol; simp [colNum] at hcol
    · have := skuCol_colNum hsku
      rw [hcol] at this
      simp at this
    · rw [h] at hcol; simp [colNum] at hcol
    · rw [h] at hcol; simp [colNum] at hcol
  · intro c v hv hc
    rcases of_mem_writeSet hv with ⟨kv, hmem, ht, heq⟩
    have hcol : colNum kv.1 = c := by
      have := congrArg (fun w => w.2.1) heq
      simpa using this.symm
    rcases mem_buildU hmem with h | h | ⟨s, hs, hne, h⟩ | h | ⟨_, h⟩ | h | h |
        ⟨hsku, it, hit, hcolk⟩ | ⟨_, h⟩ | ⟨_, h⟩
    · rw [h] at hcol; rw [← hcol] at hc; simp [colNum] at hc
    · rw [h] at hcol; rw [← hcol] at hc; simp [colNum] at hc
    · rw [h] at hcol; rw [← hcol] at hc; simp [colNum] at hc
    · rw [h] at hcol; rw [← hcol] at hc; simp [colNum] at hc
    · rw [h] at hcol; rw [← hcol] at hc; simp [colNum] at hc
    · rw [h] at hcol; rw [← hcol] at hc; simp [colNum] at hc
    · rw [h] at hcol; rw [← hcol] at hc; simp [colNum] at hc
    · exact ⟨it, hit, kv.1, hcolk, hcol⟩
    · rw [h] at hcol; rw [← hcol] at hc; simp [colNum] at hc
    · rw [h] at hcol; rw [← hcol] at hc; simp [colNum] at hc
  · intro v hv
    rcases of_mem_writeSet hv with ⟨kv, hmem, ht, heq⟩
    have hcol : colNum kv.1 = 26 := by
      have := congrArg (fun w => w.2.1) heq
      simpa using this.symm
    have hval : v = kv.2 := by
      have := congrArg (fun w => w.2.2) heq
      simpa using this
    rcases mem_buildU hmem with h | h | ⟨s, hs, hne, h⟩ | h | ⟨_, h⟩ | h | h |
        ⟨hsku, _⟩ | ⟨hpos, h⟩ | ⟨hpos, h⟩
    · rw [h] at hcol; simp [colNum] at hcol
    · rw [h] at hcol; simp [colNum] at hcol
    · rw [h] at hcol; simp [colNum] at hcol
    · rw [h] at hcol; simp [colNum] at hcol
    · rw [h] at hcol; simp [colNum] at hcol
    · rw [h] at hcol; simp [colNum] at hcol
    · rw [h] at hcol; simp [colNum] at hcol
    · have := skuCol_colNum hsku
      rw [hcol] at this
      simp at this
    · rw [h] at hcol; simp [colNum] at hcol
    · rcases isPosNum_elim hpos with ⟨q, hq, hqpos⟩
      exact ⟨q, hq, hqpos, by rw [hval, h]; exact hq⟩
  · intro v hv
    rcases of_mem_writeSet hv with ⟨kv, hmem, ht, heq⟩
    have hcol : colNum kv.1 = 27 := by
      have := congrArg (fun w => w.2.1) heq
      simpa using this.symm
    have hval : v = kv.2 := by
      have := congrArg (fun w => w.2.2) heq
      simpa using this
    rcases mem_buildU hmem with h | h | ⟨s, hs, hne, h⟩ | h | ⟨_, h⟩ | h | h |
        ⟨hsku, _⟩ | ⟨hpos, h⟩ | ⟨hpos, h⟩
    · rw [h] at hcol; simp [colNum] at hcol
    · rw [h] at hcol; simp [colNum] at hcol
    · rw [h] at hcol; simp [colNum] at hcol
    · rw [h] at hcol; simp [colNum] at hcol
    · rw [h] at hcol; simp [colNum] at hcol
    · rw [h] at hcol; simp [colNum] at hcol
    · rw [h] at hcol; simp [colNum] at hcol
    · have := skuCol_colNum hsku
      rw [hcol] at this
      simp at this
    · rcases isPosNum_elim hpos with ⟨q, hq, hqpos⟩
      exact ⟨q, hq, hqpos, by rw [hval, h]; exact hq⟩
    · rw [h] at hcol; simp [colNum] at hcol
  · intro w hw
    rcases of_mem_writeSet hw with ⟨kv, hmem, ht, rfl⟩
    refine ⟨rfl, ?_⟩
    show colNum kv.1 ∈ _
    rcases mem_buildU hmem with h | h | ⟨s, hs, hne, h⟩ | h | ⟨_, h⟩ | h | h |
        ⟨hsku, _⟩ | ⟨_, h⟩ | ⟨_, h⟩
    · rw [show kv.1 = "C" from by rw [h]]; decide
    · rw [show kv.1 = "D" from by rw [h]]; decide
    · rw [show kv.1 = "E" from by rw [h]]; decide
    · rw [show kv.1 = "H" from by rw [h]]; decide
    · rw [show kv.1 = "G" from by rw [h]]; decide
    · rw [show kv.1 = "J" from by rw [h]]; decide
    · rw [show kv.1 = "K" from by rw [h]]; decide
    · have := skuCol_colNum hsku
      simp only [List.mem_cons, List.mem_singleton] at this ⊢
      tauto
    · rw [show kv.1 = "AA" from by rw [h]]; decide
    · rw [show kv.1 = "Z" from by rw [h]]; decide

/-- Witness for C8 at a concrete order with a seller, payment method,
one item, a positive discount and a positive shipping fee. -/
theorem claim8_write_set_witness :
    (5, 3, JsonVal.str "01/02/2026") ∈ writeSet wUpdates 5 ∧
    (∀ v, (5, 26, v) ∈ writeSet wUpdates 5 →
      ∃ q : Rat, wOrder.shipping_fee = .num q ∧ 0 < q ∧ v = .num q) := by
  have h := claim8_write_set wOrder 1 2 2026 "tick" wUpdates 5 trivial trivial rfl
  exact ⟨h.1, h.2.2.2.2.2.2.2.2.2.1⟩

/-! ## Lemmas about characters and the matcher engines -/

theorem charToNat_ofNat {n : Nat} (h : n.isValidChar) : (Char.ofNat n).toNat = n := by
  unfold Char.ofNat
  rw [dif_pos h]
  rfl

theorem char_toNat_inj {a b : Char} (h : a.toNat = b.toNat) : a = b := by
  apply Char.eq_of_val_eq
  exact UInt32.toNat.inj h

/-- Either `lowerChar` fixes a character, or the character is an ASCII
capital and the result is its code plus 32. -/
theorem lowerChar_cases (c : Char) :
    lowerChar c = c ∨
    (65 ≤ c.toNat ∧ c.toNat ≤ 90 ∧ (lowerChar c).toNat = c.toNat + 32) := by
  unfold lowerChar
  by_cases h : 'A' ≤ c ∧ c ≤ 'Z'
  · right
    obtain ⟨h1, h2⟩ := h
    have h1' : 65 ≤ c.toNat := h1
    have h2' : c.toNat ≤ 90 := h2
    refine ⟨h1', h2', ?_⟩
    rw [if_pos ⟨h1, h2⟩]
    exact charToNat_ofNat (Or.inl (by omega))
  · left
    rw [if_neg h]

theorem isSpaceChar_toNat {c : Char} (h : isSpaceChar c = true) : c.toNat ≤ 32 := by
  unfold isSpaceChar at h
  simp only [Bool.or_eq_true, decide_eq_true_eq] at h
  rcases h with ((((h | h) | h) | h) | h) | h
  all_goals first
    | (subst h; decide)
    | omega

theorem isDigitChar_toNat {c : Char} (h : isDigitChar c = true) :
    48 ≤ c.toNat ∧ c.toNat ≤ 57 := by
  unfold isDigitChar at h
  simp only [Bool.and_eq_true, decide_eq_true_eq] at h
  obtain ⟨h1, h2⟩ := h
  exact ⟨h1, h2⟩

theorem isDigitChar_of_toNat {c : Char} (h1 : 48 ≤ c.toNat) (h2 : c.toNat ≤ 57) :
    isDigitChar c = true := by
  unfold isDigitChar
  simp only [Bool.and_eq_true, decide_eq_true_eq]
  exact ⟨h1, h2⟩

theorem isSpaceChar_false_of_toNat {c : Char} (h : 32 < c.toNat) : isSpaceChar c = false := by
  rw [Bool.eq_false_iff]
  intro hc
  exact absurd (isSpaceChar_toNat hc) (by omega)

theorem isDigitChar_false_of_toNat {c : Char} (h : c.toNat < 48 ∨ 57 < c.toNat) :
    isDigitChar c = false := by
  rw [Bool.eq_false_iff]
  intro hc
  have := isDigitChar_toNat hc
  omega

theorem upperChar_lowerChar (x : Char) : upperChar (lowerChar x) = upperChar x := by
  rcases lowerChar_cases x with h | ⟨h1, h2, h3⟩
  · rw [h]
  · unfold upperChar
    have hlo : 97 ≤ (lowerChar x).toNat := by omega
    have hhi : (lowerChar x).toNat ≤ 122 := by omega
    rw [if_pos ⟨hlo, hhi⟩, if_neg ?_]
    · apply char_toNat_inj
      rw [charToNat_ofNat (Or.inl (by omega)), h3]
      omega
    · intro hx
      obtain ⟨ha, hb⟩ := hx
      have ha' : 97 ≤ x.toNat := ha
      omega


theorem toNat_of_lowerChar_eq {x d : Char} (h : lowerChar x = d) :
    x.toNat = d.toNat ∨ (x.toNat + 32 = d.toNat ∧ 65 ≤ x.toNat ∧ x.toNat ≤ 90) := by
  rcases lowerChar_cases x with h' | ⟨h1, h2, h3⟩
  · left
    rw [← h', h]
  · right
    rw [h] at h3
    exact ⟨by omega, h1, h2⟩

theorem runWhile_append {p : Char → Bool} {run rest : List Char}
    (hrun : ∀ c ∈ run, p c = true)
    (hrest : ∀ c, rest.head? = some c → p c = false) :
    runWhile p (run ++ rest) = (run, rest) := by
  induction run with
  | nil =>
    rw [List.nil_append]
    cases rest with
    | nil => rfl
    | cons c cs =>
      unfold runWhile
      rw [if_neg]
      intro hc
      rw [hrest c rfl] at hc
      cases hc
  | cons a run' ih =>
    rw [List.cons_append]
    unfold runWhile
    rw [if_pos (hrun a (List.mem_cons_self a run')),
       ih (fun c hc => hrun c (List.mem_cons_of_mem a hc))]

theorem digitRun_append {q rest : List Char}
    (hq : ∀ c ∈ q, isDigitChar c = true)
    (hrest : ∀ c, rest.head? = some c → isDigitChar c = false) :
    digitRun (q ++ rest) = (q, rest) :=
  runWhile_append hq hrest

theorem dropSpaces_append {sp rest : List Char}
    (hsp : ∀ c ∈ sp, isSpaceChar c = true)
    (hrest : ∀ c, rest.head? = some c → isSpaceChar c = false) :
    dropSpaces (sp ++ rest) = rest := by
  unfold dropSpaces
  rw [runWhile_append hsp hrest]

theorem ciStarts_of_map_lower {p occ : List Char} (post : List Char)
    (h : occ.map lowerChar = p.map lowerChar) :
    ciStarts p (occ ++ post) = true := by
  induction p generalizing occ with
  | nil => rfl
  | cons a p' ih =>
    cases occ with
    | nil => cases h
    | cons b occ' =>
      simp only [List.map_cons] at h
      injection h with h1 h2
      unfold ciStarts
      simp only [List.cons_append, h1, decide_true_eq_true, Bool.true_and]
      exact ih h2

theorem ciStarts_map_lower_take {p s : List Char} (h : ciStarts p s = true) :
    (s.take p.length).map lowerChar = p.map lowerChar ∧ p.length ≤ s.length := by
  induction p generalizing s with
  | nil => simp
  | cons a p' ih =>
    cases s with
    | nil => cases h
    | cons b s' =>
      unfold ciStarts at h
      simp only [Bool.and_eq_true, decide_eq_true_eq] at h
      obtain ⟨h1, h2⟩ := h
      obtain ⟨ih1, ih2⟩ := ih h2
      refine ⟨?_, by simpa using ih2⟩
      simp only [List.length_cons, List.take_succ_cons, List.map_cons, h1, ih1]

theorem codes_not_ci_pref :
    ∀ a ∈ codeStrings, ∀ b ∈ codeStrings,
      a.map lowerChar = (b.map lowerChar).take a.length → a = b := by decide

theorem codes_upper :
    ∀ c ∈ codeStrings, (c.map lowerChar).map upperChar = c := by decide

theorem codes_shape :
    ∀ c ∈ codeStrings, ∃ c0 cs, c = c0 :: cs ∧
      (lowerChar c0 = 'p' ∨
       (lowerChar c0 = '2' ∧ ∃ c1 cs2, cs = c1 :: cs2 ∧ lowerChar c1 = 'l')) := by
  intro c hc
  simp only [codeStrings] at hc
  fin_cases hc
  · exact ⟨'P', _, rfl, Or.inl (by decide)⟩
  · exact ⟨'P', _, rfl, Or.inl (by decide)⟩
  · exact ⟨'P', _, rfl, Or.inl (by decide)⟩
  · exact ⟨'P', _, rfl, Or.inl (by decide)⟩
  · exact ⟨'2', _, rfl, Or.inr ⟨by decide, 'L', _, rfl, by decide⟩⟩
  · exact ⟨'2', _, rfl, Or.inr ⟨by decide, 'L', _, rfl, by decide⟩⟩
  · exact ⟨'2', _, rfl, Or.inr ⟨by decide, 'L', _, rfl, by decide⟩⟩
  · exact ⟨'2', _, rfl, Or.inr ⟨by decide, 'L', _, rfl, by decide⟩⟩

theorem map_lower_cons {occ : List Char} {a : Char} {rest : List Char}
    (h : occ.map lowerChar = a :: rest) :
    ∃ o0 occ2, occ = o0 :: occ2 ∧ lowerChar o0 = a ∧ occ2.map lowerChar = rest := by
  cases occ with
  | nil => cases h
  | cons o0 occ2 =>
    simp only [List.map_cons] at h
    injection h with h1 h2
    exact ⟨o0, occ2, rfl, h1, h2⟩

theorem altLit_none_of_all_false {alts : List (List Char)} {s : List Char}
    (h : ∀ p ∈ alts, ciStarts p s = false) : altLit alts s = none := by
  induction alts with
  | nil => rfl
  | cons a alts2 ih =>
    unfold altLit
    rw [if_neg, ih (fun p hp => h p (List.mem_cons_of_mem a hp))]
    rw [h a (List.mem_cons_self a alts2)]
    intro hc
    cases hc

theorem altLit_codes_none {a : Char} (t : List Char)
    (h1 : lowerChar a ≠ 'p') (h2 : lowerChar a ≠ '2') :
    altLit codeStrings (a :: t) = none := by
  apply altLit_none_of_all_false
  intro p hp
  obtain ⟨c0, cs, rfl, hc0⟩ := codes_shape p hp
  unfold ciStarts
  rcases hc0 with hc0 | ⟨hc0, _⟩ <;>
    simp [hc0, h1, h2]

theorem altLit_ci_eq {alts : List (List Char)} {c occ : List Char} (post : List Char)
    (hnp : ∀ a ∈ alts, ∀ b ∈ alts, a.map lowerChar = (b.map lowerChar).take a.length → a = b)
    (hcalts : ∀ a ∈ alts, a ∈ codeStrings)
    (hc : c ∈ alts) (h : occ.map lowerChar = c.map lowerChar) :
    altLit alts (occ ++ post) = some (occ, post) := by
  have hlenocc : occ.length = c.length := by
    have := congrArg List.length h
    simpa using this
  induction alts with
  | nil => cases hc
  | cons a alts2 ih =>
    unfold altLit
    by_cases hca : ciStarts a (occ ++ post) = true
    · rw [if_pos hca]
      obtain ⟨htake, hlen⟩ := ciStarts_map_lower_take hca
      have hac : a = c := by
        rcases le_or_lt a.length c.length with hle | hlt
        · apply hnp a (List.mem_cons_self a alts2) c hc
          rw [← htake]
          have h1 : (occ ++ post).take a.length = occ.take a.length :=
            List.take_append_of_le_length (by omega)
          rw [h1, List.map_take, h]
        · have h2 : c.map lowerChar = (a.map lowerChar).take c.length := by
            have h3 : ((occ ++ post).take a.length).take c.length =
                (occ ++ post).take c.length := by
              rw [List.take_take]
              congr 1
              omega
            have h4 : (occ ++ post).take c.length = occ := by
              rw [← hlenocc]
              exact List.take_left occ post
            rw [← htake, ← List.map_take, h3, h4, h]
          exact (hnp c hc a (List.mem_cons_self a alts2) h2).symm
      subst hac
      have hlen2 : a.length = occ.length := hlenocc.symm
      rw [hlen2, List.take_left occ post, List.drop_left occ post]
    · rw [if_neg hca]
      have hc2 : c ∈ alts2 := by
        rcases List.mem_cons.mp hc with rfl | h2
        · exact absurd (ciStarts_of_map_lower post h) hca
        · exact h2
      exact ih
        (fun x hx b hb => hnp x (List.mem_cons_of_mem a hx) b (List.mem_cons_of_mem a hb))
        (fun x hx => hcalts x (List.mem_cons_of_mem a hx)) hc2

theorem altLit_codes_eq {c occ : List Char} (post : List Char)
    (hc : c ∈ codeStrings) (h : occ.map lowerChar = c.map lowerChar) :
    altLit codeStrings (occ ++ post) = some (occ, post) :=
  altLit_ci_eq post codes_not_ci_pref (fun _ hx => hx) hc h

theorem head_all {α : Type} {c : α} {t : List α} {p : α → Bool} (h : p c = false) :
    ∀ d, ((c :: t).head? = some d) → p d = false := by
  intro d hd
  simp only [List.head?_cons, Option.some.injEq] at hd
  rw [← hd]
  exact h

theorem occ_head_facts {c occ : List Char} (hc : c ∈ codeStrings)
    (h : occ.map lowerChar = c.map lowerChar) :
    ∃ o0 occ2, occ = o0 :: occ2 ∧ isSpaceChar o0 = false ∧ lowerChar o0 ≠ 'x' ∧
      (isDigitChar o0 = false ∨
        (o0 = '2' ∧ ∃ o1 occ3, occ2 = o1 :: occ3 ∧
          isSpaceChar o1 = false ∧ isDigitChar o1 = false ∧ lowerChar o1 = 'l')) := by
  have hv1 : Char.toNat 'p' = 112 := rfl
  have hv2 : Char.toNat '2' = 50 := rfl
  have hv3 : Char.toNat 'l' = 108 := rfl
  obtain ⟨c0, cs, rfl, hc0⟩ := codes_shape c hc
  rcases hc0 with hc0 | ⟨hc0, c1, cs2, rfl, hc1⟩
  · rw [List.map_cons, hc0] at h
    obtain ⟨o0, occ2, rfl, ho0, _⟩ := map_lower_cons h
    rcases toNat_of_lowerChar_eq ho0 with ht | ⟨ht, _, _⟩
    · exact ⟨o0, occ2, rfl, isSpaceChar_false_of_toNat (by omega),
        by rw [ho0]; decide, Or.inl (isDigitChar_false_of_toNat (by omega))⟩
    · exact ⟨o0, occ2, rfl, isSpaceChar_false_of_toNat (by omega),
        by rw [ho0]; decide, Or.inl (isDigitChar_false_of_toNat (by omega))⟩
  · rw [List.map_cons, hc0] at h
    obtain ⟨o0, occ2, rfl, ho0, h2⟩ := map_lower_cons h
    have ho0eq : o0 = '2' := by
      rcases toNat_of_lowerChar_eq ho0 with ht | ⟨ht, hge, _⟩
      · exact char_toNat_inj ht
      · omega
    rw [List.map_cons, hc1] at h2
    obtain ⟨o1, occ3, rfl, ho1, _⟩ := map_lower_cons h2
    have ho1facts : isSpaceChar o1 = false ∧ isDigitChar o1 = false := by
      rcases toNat_of_lowerChar_eq ho1 with ht | ⟨ht, _, _⟩
      · exact ⟨isSpaceChar_false_of_toNat (by omega), isDigitChar_false_of_toNat (by omega)⟩
      · exact ⟨isSpaceChar_false_of_toNat (by omega), isDigitChar_false_of_toNat (by omega)⟩
    refine ⟨o0, o1 :: occ3, rfl, by rw [ho0eq]; decide, by rw [ho0]; decide,
      Or.inr ⟨ho0eq, o1, occ3, rfl, ho1facts.1, ho1facts.2, ho1⟩⟩

theorem sepCode_anchor {sp1 xopt sp2 c occ : List Char} (post : List Char)
    (hsp1 : ∀ d ∈ sp1, isSpaceChar d = true) (hsp2 : ∀ d ∈ sp2, isSpaceChar d = true)
    (hx : xopt = [] ∨ ∃ xc, xopt = [xc] ∧ lowerChar xc = 'x')
    (hc : c ∈ codeStrings) (h : occ.map lowerChar = c.map lowerChar) :
    sepCode (sp1 ++ (xopt ++ (sp2 ++ (occ ++ post)))) = some (occ, post) := by
  obtain ⟨o0, occ2, hocc0, ho0sp, ho0x, _⟩ := occ_head_facts hc h
  have haltocc : altLit codeStrings (occ ++ post) = some (occ, post) :=
    altLit_codes_eq post hc h
  rcases hx with rfl | ⟨xc, rfl, hxc⟩
  · have hdrop : dropSpaces (sp1 ++ ([] ++ (sp2 ++ (occ ++ post)))) = occ ++ post := by
      rw [List.nil_append, ← List.append_assoc]
      rw [hocc0, List.cons_append]
      exact dropSpaces_append
        (fun d hd => (List.mem_append.mp hd).elim (hsp1 d) (hsp2 d))
        (head_all ho0sp)
    unfold sepCode
    dsimp only
    rw [hdrop, hocc0, List.cons_append]
    dsimp only
    rw [if_neg ho0x]
    rw [← List.cons_append, ← hocc0]
    exact haltocc
  · have hxcsp : isSpaceChar xc = false := by
      have hv : Char.toNat 'x' = 120 := rfl
      rcases toNat_of_lowerChar_eq hxc with ht | ⟨ht, _, _⟩ <;>
        exact isSpaceChar_false_of_toNat (by omega)
    have hdrop : dropSpaces (sp1 ++ ([xc] ++ (sp2 ++ (occ ++ post)))) =
        xc :: (sp2 ++ (occ ++ post)) := by
      rw [List.singleton_append]
      exact dropSpaces_append hsp1 (head_all hxcsp)
    have hdrop2 : dropSpaces (sp2 ++ (occ ++ post)) = occ ++ post := by
      rw [hocc0, List.cons_append]
      exact dropSpaces_append hsp2 (head_all ho0sp)
    unfold sepCode
    dsimp only
    rw [hdrop]
    dsimp only
    rw [if_pos hxc, hdrop2, haltocc]

theorem tryRunsRev_hit {q : List Char} {t : List Char} {w r : List Char}
    (hq : q ≠ []) (h : sepCode t = some (w, r)) :
    tryRunsRev q.reverse t = some ((q, w), r) := by
  cases hrev : q.reverse with
  | nil =>
    exact absurd (by simpa using congrArg List.reverse hrev) hq
  | cons a qrev =>
    unfold tryRunsRev
    rw [h, ← hrev, List.reverse_reverse]

theorem tryRunsRev_back1 {q : List Char} {d : Char} {t : List Char} {w r : List Char}
    (hq : q ≠ []) (hfail : sepCode (t) = none) (h : sepCode (d :: t) = some (w, r)) :
    tryRunsRev (q ++ [d]).reverse t = some ((q, w), r) := by
  rw [List.reverse_append, List.reverse_singleton, List.singleton_append]
  unfold tryRunsRev
  rw [hfail]
  exact tryRunsRev_hit hq h

theorem matchQtyCode_none_head {a : Char} (t : List Char) (h : isDigitChar a = false) :
    matchQtyCode (a :: t) = none := by
  unfold matchQtyCode digitRun runWhile
  rw [h]
  rfl

theorem matchCodeQty_none_of_altLit {s : List Char}
    (h : altLit codeStrings s = none) : matchCodeQty s = none := by
  unfold matchCodeQty
  rw [h]

theorem nondigit_of_space {c : Char} (h : isSpaceChar c = true) : isDigitChar c = false :=
  isDigitChar_false_of_toNat (Or.inl (by have := isSpaceChar_toNat h; omega))

theorem nondigit_of_lower_x {c : Char} (h : lowerChar c = 'x') : isDigitChar c = false := by
  have hv : Char.toNat 'x' = 120 := rfl
  rcases toNat_of_lowerChar_eq h with ht | ⟨ht, _, _⟩ <;>
    exact isDigitChar_false_of_toNat (by omega)

theorem dropSpaces_cons_false {c : Char} (t : List Char) (h : isSpaceChar c = false) :
    dropSpaces (c :: t) = c :: t := by
  unfold dropSpaces runWhile
  rw [h]
  rfl

theorem matchQtyCode_anchor_aux {q T occ post : List Char}
    (hq : q ≠ []) (hqd : ∀ d ∈ q, isDigitChar d = true)
    (hTd : ∀ d, T.head? = some d → isDigitChar d = false)
    (hsc : sepCode T = some (occ, post)) :
    matchQtyCode (q ++ T) = some ((q, occ), post) := by
  unfold matchQtyCode
  rw [digitRun_append hqd hTd]
  dsimp only
  rw [show q.isEmpty = false from by simp [hq], if_neg Bool.false_ne_true]
  exact tryRunsRev_hit hq hsc

theorem matchQtyCode_anchor {q sp1 xopt sp2 c occ : List Char} (post : List Char)
    (hq : q ≠ []) (hqd : ∀ d ∈ q, isDigitChar d = true)
    (hsp1 : ∀ d ∈ sp1, isSpaceChar d = true) (hsp2 : ∀ d ∈ sp2, isSpaceChar d = true)
    (hx : xopt = [] ∨ ∃ xc, xopt = [xc] ∧ lowerChar xc = 'x')
    (hc : c ∈ codeStrings) (h : occ.map lowerChar = c.map lowerChar) :
    matchQtyCode (q ++ (sp1 ++ (xopt ++ (sp2 ++ (occ ++ post))))) = some ((q, occ), post) := by
  have hsc : sepCode (sp1 ++ (xopt ++ (sp2 ++ (occ ++ post)))) = some (occ, post) :=
    sepCode_anchor post hsp1 hsp2 hx hc h
  rcases sp1 with _ | ⟨a1, sp1'⟩
  · rcases hx with rfl | ⟨xc, rfl, hxc⟩
    · rcases sp2 with _ | ⟨a2, sp2'⟩
      · obtain ⟨o0, occ2, hocc0, ho0sp, ho0x, ho0d⟩ := occ_head_facts hc h
        subst hocc0
        rcases ho0d with ho0d | ⟨ho0eq, o1, occ3, hocc2, ho1sp, ho1d, ho1l⟩
        · exact matchQtyCode_anchor_aux hq hqd (head_all ho0d) hsc
        · subst hocc2
          subst ho0eq
          have h2 : sepCode ('2' :: (o1 :: (occ3 ++ post))) =
              some ('2' :: (o1 :: occ3), post) := hsc
          have hfail : sepCode (o1 :: (occ3 ++ post)) = none := by
            unfold sepCode
            rw [dropSpaces_cons_false _ ho1sp]
            dsimp only
            rw [if_neg (by rw [ho1l]; decide)]
            exact altLit_codes_none _ (by rw [ho1l]; decide) (by rw [ho1l]; decide)
          show matchQtyCode (q ++ ('2' :: (o1 :: (occ3 ++ post)))) =
            some ((q, '2' :: (o1 :: occ3)), post)
          unfold matchQtyCode
          rw [List.append_cons q '2' (o1 :: (occ3 ++ post))]
          rw [digitRun_append
            (fun d hd => (List.mem_append.mp hd).elim (hqd d)
              (fun h' => by rw [List.mem_singleton.mp h']; decide))
            (head_all ho1d)]
          dsimp only
          rw [show (q ++ ['2']).isEmpty = false from by simp, if_neg Bool.false_ne_true]
          exact tryRunsRev_back1 hq hfail h2
      · exact matchQtyCode_anchor_aux hq hqd
          (head_all (nondigit_of_space (hsp2 a2 (List.mem_cons_self a2 sp2')))) hsc
    · exact matchQtyCode_anchor_aux hq hqd (head_all (nondigit_of_lower_x hxc)) hsc
  · exact matchQtyCode_anchor_aux hq hqd
      (head_all (nondigit_of_space (hsp1 a1 (List.mem_cons_self a1 sp1')))) hsc

theorem nonspace_of_digit {c : Char} (h : isDigitChar c = true) : isSpaceChar c = false :=
  isSpaceChar_false_of_toNat (by have := isDigitChar_toNat h; omega)

theorem lower_x_ne_of_digit {c : Char} (h : isDigitChar c = true) : lowerChar c ≠ 'x' := by
  have h2 := isDigitChar_toNat h
  rcases lowerChar_cases c with h3 | ⟨h3, _, _⟩
  · rw [h3]
    intro he
    rw [he] at h2
    revert h2
    decide
  · omega

theorem sepDigits_anchor {sp1 xopt sp2 q post : List Char}
    (hsp1 : ∀ d ∈ sp1, isSpaceChar d = true) (hsp2 : ∀ d ∈ sp2, isSpaceChar d = true)
    (hx : xopt = [] ∨ ∃ xc, xopt = [xc] ∧ lowerChar xc = 'x')
    (hq : q ≠ []) (hqd : ∀ d ∈ q, isDigitChar d = true)
    (hpost : ∀ d, post.head? = some d → isDigitChar d = false) :
    sepDigits (sp1 ++ (xopt ++ (sp2 ++ (q ++ post)))) = some (q, post) := by
  rcases q with _ | ⟨q0, q'⟩
  · exact absurd rfl hq
  have hq0d : isDigitChar q0 = true := hqd q0 (List.mem_cons_self q0 q')
  have hdr : digitRun ((q0 :: q') ++ post) = (q0 :: q', post) := digitRun_append hqd hpost
  rcases hx with rfl | ⟨xc, rfl, hxc⟩
  · have hdrop : dropSpaces (sp1 ++ ([] ++ (sp2 ++ ((q0 :: q') ++ post)))) =
        (q0 :: q') ++ post := by
      rw [List.nil_append, ← List.append_assoc]
      rw [List.cons_append]
      exact dropSpaces_append
        (fun d hd => (List.mem_append.mp hd).elim (hsp1 d) (hsp2 d))
        (head_all (nonspace_of_digit hq0d))
    unfold sepDigits
    dsimp only
    rw [hdrop, List.cons_append]
    dsimp only
    rw [if_neg (lower_x_ne_of_digit hq0d), ← List.cons_append, hdr]
    dsimp only
    rw [show (q0 :: q').isEmpty = false from rfl, if_neg Bool.false_ne_true]
  · have hxcsp : isSpaceChar xc = false := by
      have hv : Char.toNat 'x' = 120 := rfl
      rcases toNat_of_lowerChar_eq hxc with ht | ⟨ht, _, _⟩ <;>
        exact isSpaceChar_false_of_toNat (by omega)
    have hdrop : dropSpaces (sp1 ++ ([xc] ++ (sp2 ++ ((q0 :: q') ++ post)))) =
        xc :: (sp2 ++ ((q0 :: q') ++ post)) := by
      rw [List.singleton_append]
      exact dropSpaces_append hsp1 (head_all hxcsp)
    have hdrop2 : dropSpaces (sp2 ++ ((q0 :: q') ++ post)) = (q0 :: q') ++ post := by
      rw [List.cons_append]
      exact dropSpaces_append hsp2 (head_all (nonspace_of_digit hq0d))
    unfold sepDigits
    dsimp only
    rw [hdrop]
    dsimp only
    rw [if_pos hxc, hdrop2, hdr]
    dsimp only
    rw [show (q0 :: q').isEmpty = false from rfl, if_neg Bool.false_ne_true]

theorem matchCodeQty_anchor {c occ sp1 xopt sp2 q post : List Char}
    (hc : c ∈ codeStrings) (h : occ.map lowerChar = c.map lowerChar)
    (hsp1 : ∀ d ∈ sp1, isSpaceChar d = true) (hsp2 : ∀ d ∈ sp2, isSpaceChar d = true)
    (hx : xopt = [] ∨ ∃ xc, xopt = [xc] ∧ lowerChar xc = 'x')
    (hq : q ≠ []) (hqd : ∀ d ∈ q, isDigitChar d = true)
    (hpost : ∀ d, post.head? = some d → isDigitChar d = false) :
    matchCodeQty (occ ++ (sp1 ++ (xopt ++ (sp2 ++ (q ++ post))))) = some ((occ, q), post) := by
  unfold matchCodeQty
  rw [altLit_codes_eq _ hc h]
  dsimp only
  rw [sepDigits_anchor hsp1 hsp2 hx hq hqd hpost]

theorem findallAux_mem {M : List Char → Option ((List Char × List Char) × List Char)}
    {pre T : List Char} {g : List Char × List Char} {r : List Char} {fuel : Nat}
    (hfail : ∀ k, k < pre.length → M (pre.drop k ++ T) = none)
    (hM : M T = some (g, r)) (hT : T ≠ []) (hfuel : pre.length < fuel) :
    g ∈ findallAux M fuel (pre ++ T) := by
  induction pre generalizing fuel with
  | nil =>
    cases fuel with
    | zero => omega
    | succ f =>
      rcases T with _ | ⟨t0, T'⟩
      · exact absurd rfl hT
      · rw [List.nil_append]
        unfold findallAux
        rw [hM]
        exact List.mem_cons_self _ _
  | cons a pre' ih =>
    cases fuel with
    | zero => omega
    | succ f =>
      rw [List.cons_append]
      unfold findallAux
      have h0 : M (a :: (pre' ++ T)) = none := by
        have h1 := hfail 0 (by simp)
        rw [List.drop_zero, List.cons_append] at h1
        exact h1
      rw [h0]
      refine ih (fun k hk => ?_) (by simp at hfuel; omega)
      have h1 := hfail (k + 1) (by simpa using Nat.succ_lt_succ hk)
      rw [List.drop_succ_cons] at h1
      exact h1

theorem findall_mem {M : List Char → Option ((List Char × List Char) × List Char)}
    {pre T : List Char} {g : List Char × List Char} {r : List Char}
    (hfail : ∀ k, k < pre.length → M (pre.drop k ++ T) = none)
    (hM : M T = some (g, r)) (hT : T ≠ []) :
    g ∈ findall M (pre ++ T) := by
  unfold findall
  apply findallAux_mem hfail hM hT
  rw [List.length_append]
  have h1 : 0 < T.length := List.length_pos.mpr hT
  omega

theorem pyIsdigit_of {q : List Char} (hq : q ≠ []) (hqd : ∀ d ∈ q, isDigitChar d = true) :
    pyIsdigit q = true := by
  unfold pyIsdigit
  rw [List.all_eq_true.mpr hqd]
  simp [hq]

theorem pyIsdigit_false_of_mem {s : List Char} {d : Char} (hd : d ∈ s)
    (h : isDigitChar d = false) : pyIsdigit s = false := by
  unfold pyIsdigit
  have h2 : s.all isDigitChar = false := by
    rw [List.all_eq_false]
    exact ⟨d, hd, by simp [h]⟩
  rw [h2, Bool.and_false]

theorem map_upper_eq_code {occ c : List Char} (hc : c ∈ codeStrings)
    (hocc : occ.map lowerChar = c.map lowerChar) : occ.map upperChar = c := by
  calc occ.map upperChar
      = occ.map (fun x => upperChar (lowerChar x)) :=
        List.map_congr_left (fun a _ => (upperChar_lowerChar a).symm)
    _ = (occ.map lowerChar).map upperChar := by rw [List.map_map]; rfl
    _ = (c.map lowerChar).map upperChar := by rw [hocc]
    _ = c := codes_upper c hc

theorem matchToItem_qty_code {q occ c : List Char} {p : Product}
    (hq : q ≠ []) (hqd : ∀ d ∈ q, isDigitChar d = true)
    (hc : c ∈ codeStrings) (hocc : occ.map lowerChar = c.map lowerChar)
    (hp : PRODUCTS.lookup (String.mk c) = some p) :
    matchToItem (q, occ) = some ⟨p, (natOfDigits q : Rat)⟩ := by
  unfold matchToItem
  dsimp only
  rw [pyIsdigit_of hq hqd, if_pos rfl, map_upper_eq_code hc hocc, hp]

theorem matchToItem_code_qty {occ q c : List Char} {p : Product}
    (hq : q ≠ []) (hqd : ∀ d ∈ q, isDigitChar d = true)
    (hc : c ∈ codeStrings) (hocc : occ.map lowerChar = c.map lowerChar)
    (hp : PRODUCTS.lookup (String.mk c) = some p) :
    matchToItem (occ, q) = some ⟨p, (natOfDigits q : Rat)⟩ := by
  unfold matchToItem
  dsimp only
  have hoccd : pyIsdigit occ = false := by
    obtain ⟨o0, occ2, hocc0, _, _, ho0d⟩ := occ_head_facts hc hocc
    rcases ho0d with ho0d | ⟨_, o1, occ3, hocc2, _, ho1d, _⟩
    · exact pyIsdigit_false_of_mem (hocc0 ▸ List.mem_cons_self o0 occ2) ho0d
    · refine pyIsdigit_false_of_mem ?_ ho1d
      rw [hocc0, hocc2]
      exact List.mem_cons_of_mem o0 (List.mem_cons_self o1 occ3)
  rw [hoccd, if_neg Bool.false_ne_true, pyIsdigit_of hq hqd, if_pos rfl,
    map_upper_eq_code hc hocc, hp]

theorem basicItems_order1 {pre q sp1 xopt sp2 c occ post : List Char} {p : Product}
    (hpre : ∀ d ∈ pre, isDigitChar d = false)
    (hq : q ≠ []) (hqd : ∀ d ∈ q, isDigitChar d = true)
    (hsp1 : ∀ d ∈ sp1, isSpaceChar d = true) (hsp2 : ∀ d ∈ sp2, isSpaceChar d = true)
    (hx : xopt = [] ∨ ∃ xc, xopt = [xc] ∧ lowerChar xc = 'x')
    (hc : c ∈ codeStrings) (hocc : occ.map lowerChar = c.map lowerChar)
    (hp : PRODUCTS.lookup (String.mk c) = some p) :
    OrderItem.mk p (natOfDigits q : Rat) ∈
      basicItems (pre ++ (q ++ (sp1 ++ (xopt ++ (sp2 ++ (occ ++ post)))))) := by
  have hTne : q ++ (sp1 ++ (xopt ++ (sp2 ++ (occ ++ post)))) ≠ [] := by
    rcases q with _ | ⟨q0, q'⟩
    · exact absurd rfl hq
    · simp
  have hmem : (q, occ) ∈ findall matchQtyCode
      (pre ++ (q ++ (sp1 ++ (xopt ++ (sp2 ++ (occ ++ post)))))) := by
    refine findall_mem (fun k hk => ?_)
      (matchQtyCode_anchor post hq hqd hsp1 hsp2 hx hc hocc) hTne
    cases hdk : pre.drop k with
    | nil =>
      rw [List.drop_eq_nil_iff] at hdk
      omega
    | cons a rest =>
      have ha : a ∈ pre := List.mem_of_mem_drop (hdk ▸ List.mem_cons_self a rest)
      exact matchQtyCode_none_head _ (hpre a ha)
  unfold basicItems
  exact List.mem_append.mpr (Or.inl (List.mem_append.mpr (Or.inl
    (List.mem_filterMap.mpr
      ⟨(q, occ), hmem, matchToItem_qty_code hq hqd hc hocc hp⟩))))

theorem basicItems_order2 {pre occ sp1 xopt sp2 q post c : List Char} {p : Product}
    (haltpre : ∀ k, k < pre.length →
      altLit codeStrings ((pre ++ (occ ++ (sp1 ++ (xopt ++ (sp2 ++ (q ++ post)))))).drop k) =
        none)
    (hc : c ∈ codeStrings) (hocc : occ.map lowerChar = c.map lowerChar)
    (hsp1 : ∀ d ∈ sp1, isSpaceChar d = true) (hsp2 : ∀ d ∈ sp2, isSpaceChar d = true)
    (hx : xopt = [] ∨ ∃ xc, xopt = [xc] ∧ lowerChar xc = 'x')
    (hq : q ≠ []) (hqd : ∀ d ∈ q, isDigitChar d = true)
    (hpost : ∀ d, post.head? = some d → isDigitChar d = false)
    (hp : PRODUCTS.lookup (String.mk c) = some p) :
    OrderItem.mk p (natOfDigits q : Rat) ∈
      basicItems (pre ++ (occ ++ (sp1 ++ (xopt ++ (sp2 ++ (q ++ post)))))) := by
  obtain ⟨o0, occ2, hocc0, _, _, _⟩ := occ_head_facts hc hocc
  have hTne : occ ++ (sp1 ++ (xopt ++ (sp2 ++ (q ++ post)))) ≠ [] := by
    rw [hocc0]
    simp
  have hmem : (occ, q) ∈ findall matchCodeQty
      (pre ++ (occ ++ (sp1 ++ (xopt ++ (sp2 ++ (q ++ post)))))) := by
    refine findall_mem (fun k hk => ?_)
      (matchCodeQty_anchor hc hocc hsp1 hsp2 hx hq hqd hpost) hTne
    apply matchCodeQty_none_of_altLit
    have h1 := haltpre k hk
    rw [List.drop_append_of_le_length (le_of_lt hk)] at h1
    exact h1
  unfold basicItems
  exact List.mem_append.mpr (Or.inl (List.mem_append.mpr (Or.inr
    (List.mem_filterMap.mpr
      ⟨(occ, q), hmem, matchToItem_code_qty hq hqd hc hocc hp⟩))))

theorem digit_lower_fixed {c : Char} (h : isDigitChar c = true) : lowerChar c = c := by
  rcases lowerChar_cases c with h2 | ⟨h2, _, _⟩
  · exact h2
  · have := isDigitChar_toNat h
    omega

theorem codes_tail_nondigit :
    ∀ c ∈ codeStrings, ∀ ch ∈ c.drop 1, isDigitChar (lowerChar ch) = false := by decide

theorem runWhile_decomp {p : Char → Bool} {s a b : List Char} (h : runWhile p s = (a, b)) :
    s = a ++ b ∧ (∀ c ∈ a, p c = true) ∧ (∀ c, b.head? = some c → p c = false) := by
  induction s generalizing a with
  | nil =>
    cases h
    exact ⟨rfl, fun c hc => absurd hc (List.not_mem_nil c), fun c hc => by cases hc⟩
  | cons x s2 ih =>
    unfold runWhile at h
    by_cases hx : p x = true
    · rw [if_pos hx] at h
      cases h
      obtain ⟨h1, h2, h3⟩ := ih rfl
      refine ⟨by rw [List.cons_append, ← h1], ?_, h3⟩
      intro c hc
      rcases List.mem_cons.mp hc with rfl | hc
      · exact hx
      · exact h2 c hc
    · rw [if_neg hx] at h
      cases h
      exact ⟨rfl, fun c hc => absurd hc (List.not_mem_nil c),
        fun c hc => by
          simp only [List.head?_cons, Option.some.injEq] at hc
          rw [← hc]
          exact Bool.eq_false_iff.mpr hx⟩

theorem altLit_sound {alts : List (List Char)} {s w r : List Char}
    (h : altLit alts s = some (w, r)) :
    ∃ code ∈ alts, s = w ++ r ∧ w.map lowerChar = code.map lowerChar := by
  induction alts with
  | nil => cases h
  | cons a alts2 ih =>
    unfold altLit at h
    by_cases hca : ciStarts a s = true
    · rw [if_pos hca] at h
      injection h with h2
      injection h2 with h3 h4
      obtain ⟨htake, hlen⟩ := ciStarts_map_lower_take hca
      refine ⟨a, List.mem_cons_self a alts2, ?_, ?_⟩
      · rw [← h3, ← h4, List.take_append_drop]
      · rw [← h3, htake]
    · rw [if_neg hca] at h
      obtain ⟨code, hcm, h1, h2⟩ := ih h
      exact ⟨code, List.mem_cons_of_mem a hcm, h1, h2⟩

theorem sepCode_sound {s w r : List Char} (h : sepCode s = some (w, r)) :
    ∃ mid, ∃ code ∈ codeStrings, s = mid ++ (w ++ r) ∧
      w.map lowerChar = code.map lowerChar ∧
      (∀ ch ∈ mid, isSpaceChar ch = true ∨ lowerChar ch = 'x') := by
  obtain ⟨sp0, ds, hpr⟩ : ∃ a b, runWhile isSpaceChar s = (a, b) := ⟨_, _, rfl⟩
  obtain ⟨hseq, hsp0, _⟩ := runWhile_decomp hpr
  have hds : dropSpaces s = ds := by
    unfold dropSpaces
    rw [hpr]
  unfold sepCode at h
  dsimp only at h
  rw [hds] at h
  split at h
  · rename_i c t2 heq
    split at h
    · rename_i hx
      split at h
      · rename_i r0 heq2
        injection h with h2
        subst h2
        obtain ⟨sp1, dt2, hpr2⟩ : ∃ a b, runWhile isSpaceChar t2 = (a, b) := ⟨_, _, rfl⟩
        obtain ⟨hseq2, hsp1, _⟩ := runWhile_decomp hpr2
        have hds2 : dropSpaces t2 = dt2 := by
          unfold dropSpaces
          rw [hpr2]
        rw [hds2] at heq2
        obtain ⟨code, hcm, h3, h4⟩ := altLit_sound heq2
        refine ⟨sp0 ++ (c :: sp1), code, hcm, ?_, h4, ?_⟩
        · rw [List.append_assoc, List.cons_append, hseq, hseq2, h3]
        · intro ch hch
          rcases List.mem_append.mp hch with hch | hch
          · exact Or.inl (hsp0 ch hch)
          · rcases List.mem_cons.mp hch with rfl | hch
            · exact Or.inr hx
            · exact Or.inl (hsp1 ch hch)
      · obtain ⟨code, hcm, h3, h4⟩ := altLit_sound h
        exact ⟨sp0, code, hcm, by rw [hseq, h3],
          h4, fun ch hch => Or.inl (hsp0 ch hch)⟩
    · obtain ⟨code, hcm, h3, h4⟩ := altLit_sound h
      exact ⟨sp0, code, hcm, by rw [hseq, h3],
        h4, fun ch hch => Or.inl (hsp0 ch hch)⟩
  · cases h

theorem tryRunsRev_sound {qrev t : List Char} {d w r : List Char}
    (h : tryRunsRev qrev t = some ((d, w), r)) :
    ∃ m, qrev.drop m ≠ [] ∧ d = (qrev.drop m).reverse ∧
      sepCode ((qrev.take m).reverse ++ t) = some (w, r) := by
  induction qrev generalizing t with
  | nil => cases h
  | cons a qr ih =>
    unfold tryRunsRev at h
    split at h
    · rename_i w0 r0 hsc
      simp only [Option.some.injEq, Prod.mk.injEq] at h
      obtain ⟨⟨h5, h6⟩, h4⟩ := h
      refine ⟨0, by simp, by rw [List.drop_zero, h5], ?_⟩
      rw [List.take_zero, List.reverse_nil, List.nil_append, hsc, h6, h4]
    · rename_i hsc
      obtain ⟨m, hm1, hm2, hm3⟩ := ih h
      refine ⟨m + 1, ?_, ?_, ?_⟩
      · rw [List.drop_succ_cons]
        exact hm1
      · rw [List.drop_succ_cons]
        exact hm2
      · rw [List.take_succ_cons, List.reverse_cons, List.append_assoc,
          List.singleton_append]
        exact hm3

theorem matchQtyCode_sound {s : List Char} {d w r : List Char}
    (h : matchQtyCode s = some ((d, w), r)) :
    ∃ mid, ∃ code ∈ codeStrings, s = d ++ (mid ++ (w ++ r)) ∧ d ≠ [] ∧
      (∀ ch ∈ d, isDigitChar ch = true) ∧
      (∀ ch ∈ mid, isSpaceChar ch = true ∨ lowerChar ch = 'x') ∧
      w.map lowerChar = code.map lowerChar := by
  obtain ⟨drun, rest, hpr⟩ : ∃ a b, runWhile isDigitChar s = (a, b) := ⟨_, _, rfl⟩
  obtain ⟨hseq, hdig, _⟩ := runWhile_decomp hpr
  unfold matchQtyCode at h
  dsimp only at h
  have hdr : digitRun s = (drun, rest) := hpr
  rw [hdr] at h
  dsimp only at h
  split at h
  · cases h
  · rename_i hne
    obtain ⟨m, hm1, hm2, hm3⟩ := tryRunsRev_sound h
    obtain ⟨mid, code, hcm, hsc, hci, hmid⟩ := sepCode_sound hm3
    refine ⟨mid, code, hcm, ?_, ?_, ?_, hmid, hci⟩
    · rw [hseq, ← hsc, hm2]
      rw [← List.append_assoc, ← List.reverse_append, List.take_append_drop,
        List.reverse_reverse]
    · rw [hm2]
      intro hcon
      rw [List.reverse_eq_nil_iff] at hcon
      exact hm1 hcon
    · intro ch hch
      apply hdig
      rw [hm2] at hch
      rw [List.mem_reverse] at hch
      have h6 : ch ∈ drun.reverse := List.mem_of_mem_drop hch
      rw [List.mem_reverse] at h6
      exact h6

theorem code_occ_no_digit_interior {b : List Char} {f0 : Char} {f2 code : List Char}
    (hb : b ≠ []) (hcode : code ∈ codeStrings)
    (hw : (b ++ (f0 :: f2)).map lowerChar = code.map lowerChar) :
    isDigitChar f0 = false := by
  have hmap : (f0 :: f2).map lowerChar = (code.drop b.length).map lowerChar := by
    have h1 := congrArg (List.drop b.length) hw
    rw [List.map_append] at h1
    have h2 : (b.map lowerChar ++ (f0 :: f2).map lowerChar).drop (b.map lowerChar).length
        = ((f0 :: f2).map lowerChar) := List.drop_left _ _
    have h3 : (b.map lowerChar).length = b.length := by simp
    rw [h3] at h2
    rw [h2] at h1
    rw [List.map_drop]
    exact h1
  have hb1 : 1 ≤ b.length := by
    cases b with
    | nil => exact absurd rfl hb
    | cons x xs => simp
  cases hcd : code.drop b.length with
  | nil =>
    rw [hcd] at hmap
    cases hmap
  | cons cj cs2 =>
    rw [hcd] at hmap
    simp only [List.map_cons] at hmap
    injection hmap with h4 h4b
    have h5 : (code.drop 1).drop (b.length - 1) = cj :: cs2 := by
      rw [List.drop_drop, show 1 + (b.length - 1) = b.length from by omega]
      exact hcd
    have hmem : cj ∈ code.drop 1 := by
      apply List.mem_of_mem_drop (n := b.length - 1)
      rw [h5]
      exact List.mem_cons_self cj cs2
    have hnd : isDigitChar (lowerChar cj) = false := codes_tail_nondigit code hcode cj hmem
    rw [Bool.eq_false_iff]
    intro hd
    rw [digit_lower_fixed hd] at h4
    rw [← h4] at hnd
    rw [hd] at hnd
    cases hnd

theorem lower_l_facts {ch : Char} (h : lowerChar ch = 'l') :
    isSpaceChar ch = false ∧ isDigitChar ch = false ∧ ch ≠ 'x' := by
  have hv : Char.toNat 'l' = 108 := rfl
  rcases toNat_of_lowerChar_eq h with ht | ⟨ht, _, _⟩
  · refine ⟨isSpaceChar_false_of_toNat (by omega),
      isDigitChar_false_of_toNat (by omega), ?_⟩
    intro he
    rw [he] at ht
    revert ht
    decide
  · refine ⟨isSpaceChar_false_of_toNat (by omega),
      isDigitChar_false_of_toNat (by omega), ?_⟩
    intro he
    rw [he] at ht
    revert ht
    decide

theorem no_code_at_q {q sp1 xopt sp2 c occ post w r code : List Char}
    (hq : q ≠ []) (hqd : ∀ d ∈ q, isDigitChar d = true)
    (hsp1 : ∀ d ∈ sp1, isSpaceChar d = true) (hsp2 : ∀ d ∈ sp2, isSpaceChar d = true)
    (hx : xopt = [] ∨ ∃ xc, xopt = [xc] ∧ lowerChar xc = 'x')
    (hc : c ∈ codeStrings) (hocc : occ.map lowerChar = c.map lowerChar)
    (hcode : code ∈ codeStrings) (hw : w.map lowerChar = code.map lowerChar)
    (hT : q ++ (sp1 ++ (xopt ++ (sp2 ++ (occ ++ post)))) = w ++ r) : False := by
  rcases q with _ | ⟨q0, q2⟩
  · exact absurd rfl hq
  obtain ⟨k0, ks, rfl, hk0⟩ := codes_shape code hcode
  rw [List.map_cons] at hw
  obtain ⟨w0, w2, rfl, hw0, hw2⟩ := map_lower_cons hw
  rw [List.cons_append, List.cons_append] at hT
  injection hT with hq0 htl
  have hd0 : isDigitChar q0 = true := hqd q0 (List.mem_cons_self q0 q2)
  have hlf : lowerChar q0 = q0 := digit_lower_fixed hd0
  rcases hk0 with hk0 | ⟨hk0, k1, ks2, rfl, hk1⟩
  · rw [hq0] at hd0 hlf
    rw [hlf, hk0] at hw0
    rw [hw0] at hd0
    revert hd0
    decide
  · rw [List.map_cons] at hw2
    obtain ⟨w1, w3, rfl, hw1, _⟩ := map_lower_cons hw2
    rw [hk1] at hw1
    obtain ⟨hw1sp, hw1d, _⟩ := lower_l_facts hw1
    rcases q2 with _ | ⟨q1, q3⟩
    · simp only [List.nil_append, List.cons_append] at htl
      rcases sp1 with _ | ⟨s0, sp1m⟩
      · simp only [List.nil_append] at htl
        rcases hx with rfl | ⟨xc, rfl, hxc⟩
        · simp only [List.nil_append] at htl
          rcases sp2 with _ | ⟨s2, sp2m⟩
          · simp only [List.nil_append] at htl
            obtain ⟨c0, cs, rfl, hc0⟩ := codes_shape c hc
            rw [List.map_cons] at hocc
            obtain ⟨o0, occ2, rfl, ho0, _⟩ := map_lower_cons hocc
            simp only [List.cons_append] at htl
            injection htl with ho0w _
            rw [← ho0w] at hw1
            have hc0or : lowerChar c0 = 'p' ∨ lowerChar c0 = '2' := by
              rcases hc0 with hc0 | ⟨hc0, _⟩
              · exact Or.inl hc0
              · exact Or.inr hc0
            rcases hc0or with hc0e | hc0e <;>
              · rw [hc0e] at ho0
                rw [ho0] at hw1
                revert hw1
                decide
          · simp only [List.cons_append] at htl
            injection htl with hs2w _
            have h6 := hsp2 s2 (List.mem_cons_self s2 sp2m)
            rw [hs2w, hw1sp] at h6
            cases h6
        · simp only [List.singleton_append, List.cons_append] at htl
          injection htl with hxw _
          rw [hxw, hw1] at hxc
          revert hxc
          decide
      · simp only [List.cons_append] at htl
        injection htl with hsw _
        have h6 := hsp1 s0 (List.mem_cons_self s0 sp1m)
        rw [hsw, hw1sp] at h6
        cases h6
    · simp only [List.cons_append] at htl
      injection htl with hq1 _
      have hd1 : isDigitChar q1 = true :=
        hqd q1 (List.mem_cons_of_mem q0 (List.mem_cons_self q1 q3))
      rw [hq1, hw1d] at hd1
      cases hd1

theorem matchQtyCode_bound {p2 q sp1 xopt sp2 c occ post : List Char}
    {d w : List Char} {r : List Char}
    (hp2 : p2 ≠ [])
    (hlast : ∀ p1 dl, p2 = p1 ++ [dl] → isDigitChar dl = false)
    (hq : q ≠ []) (hqd : ∀ d2 ∈ q, isDigitChar d2 = true)
    (hsp1 : ∀ d2 ∈ sp1, isSpaceChar d2 = true) (hsp2 : ∀ d2 ∈ sp2, isSpaceChar d2 = true)
    (hx : xopt = [] ∨ ∃ xc, xopt = [xc] ∧ lowerChar xc = 'x')
    (hc : c ∈ codeStrings) (hocc : occ.map lowerChar = c.map lowerChar)
    (hm : matchQtyCode (p2 ++ (q ++ (sp1 ++ (xopt ++ (sp2 ++ (occ ++ post)))))) =
      some ((d, w), r)) :
    ∃ k, 1 ≤ k ∧ k ≤ p2.length ∧
      r = p2.drop k ++ (q ++ (sp1 ++ (xopt ++ (sp2 ++ (occ ++ post))))) := by
  obtain ⟨mid, code, hcode, hsplit, hd, hdd, hmid, hwci⟩ := matchQtyCode_sound hm
  rcases List.append_eq_append_iff.mp hsplit with ⟨a, ha1, _⟩ | ⟨cc, hc1, hc2⟩
  · exfalso
    rcases List.eq_nil_or_concat p2 with rfl | ⟨L, dl, hLdl⟩
    · exact hp2 rfl
    · have hdl : isDigitChar dl = false := by
        apply hlast L dl
        rw [hLdl, List.concat_eq_append]
      have hdlmem : dl ∈ d := by
        rw [ha1, hLdl, List.concat_eq_append, List.append_assoc]
        exact List.mem_append.mpr (Or.inr (List.mem_append.mpr
          (Or.inl (List.mem_singleton.mpr rfl))))
      rw [hdd dl hdlmem] at hdl
      cases hdl
  · rcases List.append_eq_append_iff.mp hc2 with ⟨a2, hA1, hA2⟩ | ⟨c2, hB1, hB2⟩
    · rcases List.append_eq_append_iff.mp hA2 with ⟨b2, hA11, hA12⟩ | ⟨f, hA21, hA22⟩
      · refine ⟨(d ++ (mid ++ w)).length, ?_, ?_, ?_⟩
        · have h7 : 0 < d.length := List.length_pos.mpr hd
          simp only [List.length_append]
          omega
        · have h8 : p2 = (d ++ (mid ++ w)) ++ b2 := by
            rw [hc1, hA1, hA11, List.append_assoc, List.append_assoc]
          rw [h8]
          simp only [List.length_append]
          omega
        · have h8 : p2 = (d ++ (mid ++ w)) ++ b2 := by
            rw [hc1, hA1, hA11, List.append_assoc, List.append_assoc]
          rw [h8, List.drop_left]
          exact hA12
      · rcases f with _ | ⟨f0, f2⟩
        · refine ⟨p2.length, List.length_pos.mpr hp2, le_refl _, ?_⟩
          rw [List.drop_length, List.nil_append]
          rw [List.nil_append] at hA22
          exact hA22.symm
        · exfalso
          rcases a2 with _ | ⟨b0, b3⟩
          · rw [List.nil_append] at hA21
            rw [hA21] at hwci
            exact no_code_at_q hq hqd hsp1 hsp2 hx hc hocc hcode hwci hA22
          · have hf0 : isDigitChar f0 = false := by
              apply code_occ_no_digit_interior (b := b0 :: b3) (by simp) hcode
              rw [← hA21]
              exact hwci
            rcases q with _ | ⟨q0, q2⟩
            · exact absurd rfl hq
            rw [List.cons_append] at hA22
            injection hA22 with hq0f _
            have hd0 : isDigitChar q0 = true := hqd q0 (List.mem_cons_self q0 q2)
            rw [hq0f, hf0] at hd0
            cases hd0
    · rcases c2 with _ | ⟨m0, m2⟩
      · exfalso
        rw [List.nil_append] at hB2
        exact no_code_at_q hq hqd hsp1 hsp2 hx hc hocc hcode hwci hB2
      · exfalso
        have hm0 : m0 ∈ mid := by
          rw [hB1]
          exact List.mem_append.mpr (Or.inr (List.mem_cons_self m0 m2))
        rcases q with _ | ⟨q0, q2⟩
        · exact absurd rfl hq
        rw [List.cons_append] at hB2
        rw [List.cons_append] at hB2
        injection hB2 with hq0m _
        have hd0 : isDigitChar q0 = true := hqd q0 (List.mem_cons_self q0 q2)
        rcases hmid m0 hm0 with hsp | hlx
        · rw [hq0m] at hd0
          rw [nonspace_of_digit hd0] at hsp
          cases hsp
        · rw [hq0m] at hd0
          exact lower_x_ne_of_digit hd0 hlx

theorem findallAux_mem_strong {q sp1 xopt sp2 c occ post : List Char}
    (hq : q ≠ []) (hqd : ∀ d ∈ q, isDigitChar d = true)
    (hsp1 : ∀ d ∈ sp1, isSpaceChar d = true) (hsp2 : ∀ d ∈ sp2, isSpaceChar d = true)
    (hx : xopt = [] ∨ ∃ xc, xopt = [xc] ∧ lowerChar xc = 'x')
    (hc : c ∈ codeStrings) (hocc : occ.map lowerChar = c.map lowerChar) :
    ∀ fuel p2, (∀ p1 dl, p2 = p1 ++ [dl] → isDigitChar dl = false) →
      p2.length < fuel →
      (q, occ) ∈ findallAux matchQtyCode fuel
        (p2 ++ (q ++ (sp1 ++ (xopt ++ (sp2 ++ (occ ++ post)))))) := by
  have hanchor := matchQtyCode_anchor post hq hqd hsp1 hsp2 hx hc hocc
  intro fuel
  induction fuel with
  | zero =>
    intro p2 _ hf
    omega
  | succ f ih =>
    intro p2 hlast hf
    rcases p2 with _ | ⟨a, p2m⟩
    · rcases q with _ | ⟨q0, q2⟩
      · exact absurd rfl hq
      rw [List.nil_append]
      have hanchor2 : matchQtyCode
          (q0 :: (q2 ++ (sp1 ++ (xopt ++ (sp2 ++ (occ ++ post)))))) =
          some ((q0 :: q2, occ), post) := hanchor
      rw [List.cons_append]
      unfold findallAux
      rw [hanchor2]
      exact List.mem_cons_self _ _
    · cases hmc : matchQtyCode
          ((a :: p2m) ++ (q ++ (sp1 ++ (xopt ++ (sp2 ++ (occ ++ post)))))) with
      | none =>
        rw [List.cons_append]
        unfold findallAux
        rw [show matchQtyCode
            (a :: (p2m ++ (q ++ (sp1 ++ (xopt ++ (sp2 ++ (occ ++ post)))))) ) = none from hmc]
        refine ih p2m (fun p1 dl hp => hlast (a :: p1) dl (by rw [hp, List.cons_append])) ?_
        simp only [List.length_cons] at hf
        omega
      | some gr =>
        obtain ⟨⟨dd, w⟩, r⟩ := gr
        obtain ⟨k, hk1, hk2, hk3⟩ :=
          matchQtyCode_bound (by simp) hlast hq hqd hsp1 hsp2 hx hc hocc hmc
        rw [List.cons_append]
        unfold findallAux
        rw [show matchQtyCode
            (a :: (p2m ++ (q ++ (sp1 ++ (xopt ++ (sp2 ++ (occ ++ post)))))) ) =
            some ((dd, w), r) from hmc]
        apply List.mem_cons_of_mem
        rw [hk3]
        have hdk : (a :: p2m).drop k = p2m.drop (k - 1) := by
          rcases k with _ | k2
          · omega
          · rw [List.drop_succ_cons]
            rfl
        rw [hdk]
        refine ih (p2m.drop (k - 1)) ?_ ?_
        · intro p1 dl hp
          apply hlast (a :: (p2m.take (k - 1) ++ p1)) dl
          rw [List.cons_append, List.append_assoc, ← hp, List.take_append_drop]
        · have h9 := List.length_drop (k - 1) p2m
          simp only [List.length_cons] at hf
          omega

theorem basicItems_order1_strong {pre q sp1 xopt sp2 c occ post : List Char} {p : Product}
    (hlast : ∀ p1 dl, pre = p1 ++ [dl] → isDigitChar dl = false)
    (hq : q ≠ []) (hqd : ∀ d ∈ q, isDigitChar d = true)
    (hsp1 : ∀ d ∈ sp1, isSpaceChar d = true) (hsp2 : ∀ d ∈ sp2, isSpaceChar d = true)
    (hx : xopt = [] ∨ ∃ xc, xopt = [xc] ∧ lowerChar xc = 'x')
    (hc : c ∈ codeStrings) (hocc : occ.map lowerChar = c.map lowerChar)
    (hp : PRODUCTS.lookup (String.mk c) = some p) :
    OrderItem.mk p (natOfDigits q : Rat) ∈
      basicItems (pre ++ (q ++ (sp1 ++ (xopt ++ (sp2 ++ (occ ++ post)))))) := by
  have hmem : (q, occ) ∈ findall matchQtyCode
      (pre ++ (q ++ (sp1 ++ (xopt ++ (sp2 ++ (occ ++ post)))))) := by
    unfold findall
    apply findallAux_mem_strong hq hqd hsp1 hsp2 hx hc hocc _ pre hlast
    rcases q with _ | ⟨q0, q2⟩
    · exact absurd rfl hq
    · simp only [List.length_append, List.length_cons]
      omega
  unfold basicItems
  exact List.mem_append.mpr (Or.inl (List.mem_append.mpr (Or.inl
    (List.mem_filterMap.mpr
      ⟨(q, occ), hmem, matchToItem_qty_code hq hqd hc hocc hp⟩))))

/-! ## Lemmas about the JSON reconciliation path -/

theorem lookup_mem_pair {α β : Type} [BEq α] [LawfulBEq α] {l : List (α × β)} {k : α} {v : β}
    (h : l.lookup k = some v) : (k, v) ∈ l := by
  induction l with
  | nil => simp [List.lookup] at h
  | cons kv rest ih =>
    rcases kv with ⟨a, b⟩
    rw [List.lookup] at h
    cases hbeq : (k == a) with
    | true =>
      rw [hbeq] at h
      simp only [Option.some.injEq] at h
      have : k = a := eq_of_beq hbeq
      subst this
      subst h
      exact List.mem_cons_self _ _
    | false =>
      rw [hbeq] at h
      exact List.mem_cons_of_mem _ (ih h)

theorem matchToItem_props {g : List Char × List Char} {it : OrderItem}
    (h : matchToItem g = some it) :
    it.product ∈ PRODUCTS.map Prod.snd ∧ 0 ≤ it.quantity := by
  unfold matchToItem at h
  split at h
  · split at h
    · rename_i p hp
      simp only [Option.some.injEq] at h
      subst h
      exact ⟨List.mem_map.mpr ⟨_, lookup_mem_pair hp, rfl⟩, by positivity⟩
    · cases h
  · split at h
    · split at h
      · rename_i p hp
        simp only [Option.some.injEq] at h
        subst h
        exact ⟨List.mem_map.mpr ⟨_, lookup_mem_pair hp, rfl⟩, by positivity⟩
      · cases h
    · cases h

theorem basicItems_props (msg : List Char) :
    ∀ it ∈ basicItems msg, it.product ∈ PRODUCTS.map Prod.snd ∧ 0 ≤ it.quantity := by
  intro it hit
  unfold basicItems at hit
  rcases List.mem_append.mp hit with hit | hit
  · rcases List.mem_append.mp hit with hit | hit
    · rcases List.mem_filterMap.mp hit with ⟨g, _, hm⟩
      exact matchToItem_props hm
    · rcases List.mem_filterMap.mp hit with ⟨g, _, hm⟩
      exact matchToItem_props hm
  · rcases List.mem_filterMap.mp hit with ⟨g, _, hm⟩
    exact matchToItem_props hm

theorem pyGtZero_pos {v : JsonVal} (h : pyGtZero v = .ok true) : 0 < jsonNumVal v := by
  cases v with
  | num q =>
    simp only [pyGtZero, Except.ok.injEq] at h
    simpa [jsonNumVal] using of_decide_eq_true h
  | bool b =>
    simp only [pyGtZero, Except.ok.injEq] at h
    subst h
    simp [jsonNumVal]
  | null => simp [pyGtZero] at h
  | str s => simp [pyGtZero] at h
  | arr l => simp [pyGtZero] at h
  | obj l => simp [pyGtZero] at h

theorem jsonToItems_props {l : List JsonVal} {items : List OrderItem}
    (h : jsonToItems l = .ok items) :
    ∀ it ∈ items, it.product ∈ PRODUCTS.map Prod.snd ∧ 0 < it.quantity := by
  induction l generalizing items with
  | nil =>
    simp only [jsonToItems, Except.ok.injEq] at h
    subst h
    intro it hit
    cases hit
  | cons d rest ih =>
    simp only [jsonToItems, bind, Except.bind] at h
    split at h
    · cases h
    · rename_i pcv hpcv
      split at h
      · cases h
      · rename_i pc hpc
        split at h
        · cases h
        · rename_i qv hqv
          split at h
          · rename_i prod hprod
            split at h
            · cases h
            · rename_i b hb
              split at h
              · cases h
              · rename_i tail htail
                simp only [Except.ok.injEq] at h
                subst h
                intro it hit
                by_cases hbt : b = true
                · subst hbt
                  rw [if_pos rfl] at hit
                  rcases List.mem_cons.mp hit with rfl | hit
                  · refine ⟨List.mem_map.mpr ⟨_, lookup_mem_pair hprod, rfl⟩, ?_⟩
                    exact pyGtZero_pos hb
                  · exact ih htail it hit
                · rw [if_neg hbt] at hit
                  exact ih htail it hit
          · exact ih h

theorem createOrderFromJson_ok_spec {data : JsonVal} {raw : String} {o : ParsedOrder}
    (h : createOrderFromJson data raw = .ok o) :
    (∃ elems, jsonToItems elems = .ok o.items) ∧
    o.auto_sold_by = (match o.customer_location with
      | .str s =>
        if s = "Quezon City" then some "Ferdie"
        else if s = "Paranaque" then some "Nina"
        else none
      | _ => none) := by
  unfold createOrderFromJson at h
  simp only [bind, Except.bind] at h
  split at h
  · cases h
  · rename_i itemsv hitemsv
    split at h
    · cases h
    · rename_i elems helems
      split at h
      · cases h
      · rename_i items hitems
        split at h
        · cases h
        · rename_i loc hloc
          split at h
          · cases h
          · rename_i name0 hname0
            split at h
            · cases h
            · rename_i name hname
              split at h
              · cases h
              · rename_i dp hdp
                split at h
                · cases h
                · rename_i da0 hda0
                  split at h
                  · cases h
                  · rename_i da hda
                    split at h
                    · cases h
                    · rename_i sf hsf
                      split at h
                      · cases h
                      · rename_i pm hpm
                        simp only [Except.ok.injEq] at h
                        subst h
                        exact ⟨⟨elems, hitems⟩, rfl⟩

theorem detectLS_cases (m : List Char) :
    detectLocationAndSeller m = (some "Quezon City", some "Ferdie") ∨
    detectLocationAndSeller m = (some "Paranaque", some "Nina") ∨
    detectLocationAndSeller m = (none, none) := by
  unfold detectLocationAndSeller
  dsimp only
  split
  · exact Or.inl rfl
  · split
    · exact Or.inr (Or.inl rfl)
    · exact Or.inr (Or.inr rfl)

/-! ## Claim theorems for the extractor, reconciler and seller rule -/

set_option maxRecDepth 10000 in
/-- C1 counterexample: the message `P-CHZ 2L-OG 3` contains the catalog code
`2L-OG` followed by the quantity 3 (the substring `2L-OG 3`, in the claim's
code-then-quantity order), yet `_basic_parse` returns only the single item
(P-CHZ, 2): the code-quantity scan consumes `P-CHZ 2`, swallowing the
leading `2` of `2L-OG`, so no (2L-OG, 3) item is produced. -/
theorem claim1_extractor_counterexample :
    containsSub "2L-OG 3".data "P-CHZ 2L-OG 3".data = true ∧
    (basicParse "P-CHZ 2L-OG 3").items =
      [⟨⟨"P-CHZ", "Cheese", "Pouch", 150⟩, (2 : Nat)⟩] := by
  constructor
  · decide
  · decide

/-- C1 (amended): `_basic_parse` finds a quantity/code occurrence in either
order, with the scan-interference provisos the original claim lacks.
Quantity-first: if the message is `pre ++ digits ++ sep ++ code ++ post`
with `sep` matching `\s*x?\s*`, the code a case-insensitive catalog-code
occurrence, and `pre` not ending in a digit, then the corresponding item is
extracted (an earlier code-free scan step cannot run past the quantity).  Code-first: if the message is
`pre ++ code ++ sep ++ digits ++ post` with `post` not starting with a
digit and no catalog code occurring (case-insensitively) at any position
inside `pre`, then the corresponding item is extracted. -/
theorem claim1_extractor_amended :
    (∀ (pre q sp1 xopt sp2 c occ post : List Char) (p : Product),
        c ∈ codeStrings →
        PRODUCTS.lookup (String.mk c) = some p →
        occ.map lowerChar = c.map lowerChar →
        q ≠ [] → (∀ d ∈ q, isDigitChar d = true) → 0 < natOfDigits q →
        (∀ p1 dl, pre = p1 ++ [dl] → isDigitChar dl = false) →
        (∀ d ∈ sp1, isSpaceChar d = true) → (∀ d ∈ sp2, isSpaceChar d = true) →
        (xopt = [] ∨ ∃ xc, xopt = [xc] ∧ lowerChar xc = 'x') →
        OrderItem.mk p (natOfDigits q : Rat) ∈
          (basicParse (String.mk
            (pre ++ (q ++ (sp1 ++ (xopt ++ (sp2 ++ (occ ++ post)))))))).items) ∧
    (∀ (pre occ sp1 xopt sp2 q post c : List Char) (p : Product),
        c ∈ codeStrings →
        PRODUCTS.lookup (String.mk c) = some p →
        occ.map lowerChar = c.map lowerChar →
        q ≠ [] → (∀ d ∈ q, isDigitChar d = true) → 0 < natOfDigits q →
        (∀ k, k < pre.length →
          altLit codeStrings
            ((pre ++ (occ ++ (sp1 ++ (xopt ++ (sp2 ++ (q ++ post)))))).drop k) = none) →
        (∀ d ∈ sp1, isSpaceChar d = true) → (∀ d ∈ sp2, isSpaceChar d = true) →
        (xopt = [] ∨ ∃ xc, xopt = [xc] ∧ lowerChar xc = 'x') →
        (∀ d, post.head? = some d → isDigitChar d = false) →
        OrderItem.mk p (natOfDigits q : Rat) ∈
          (basicParse (String.mk
            (pre ++ (occ ++ (sp1 ++ (xopt ++ (sp2 ++ (q ++ post)))))))).items) := by
  constructor
  · intro pre q sp1 xopt sp2 c occ post p hc hp hocc hq hqd _ hpre hsp1 hsp2 hx
    exact basicItems_order1_strong hpre hq hqd hsp1 hsp2 hx hc hocc hp
  · intro pre occ sp1 xopt sp2 q post c p hc hp hocc hq hqd _ halt hsp1 hsp2 hx hpost
    exact basicItems_order2 halt hc hocc hsp1 hsp2 hx hq hqd hpost hp

/-- C1 witness: both amended directions at concrete messages (`2 p-chz`
lowercase, and `2L-OG 3`). -/
theorem claim1_extractor_witness :
    OrderItem.mk ⟨"P-CHZ", "Cheese", "Pouch", 150⟩ ((2 : Nat) : Rat) ∈
      (basicParse (String.mk
        ([] ++ (['2'] ++ ([' '] ++ ([] ++ ([] ++ ("p-chz".data ++ [])))))))).items ∧
    OrderItem.mk ⟨"2L-OG", "Original Spice Blend", "Tub", 290⟩ ((3 : Nat) : Rat) ∈
      (basicParse (String.mk
        ([] ++ ("2L-OG".data ++ ([' '] ++ ([] ++ ([] ++ (['3'] ++ [])))))))).items := by
  constructor
  · exact claim1_extractor_amended.1 [] ['2'] [' '] [] [] "P-CHZ".data "p-chz".data []
      ⟨"P-CHZ", "Cheese", "Pouch", 150⟩
      (by decide) (by decide) (by decide) (by decide)
      (fun d hd => by rw [List.mem_singleton.mp hd]; decide) (by decide)
      (fun p1 dl h => absurd h (by simp))
      (fun d hd => by rw [List.mem_singleton.mp hd]; decide)
      (fun d hd => by cases hd)
      (Or.inl rfl)
  · exact claim1_extractor_amended.2 [] "2L-OG".data [' '] [] [] ['3'] [] "2L-OG".data
      ⟨"2L-OG", "Original Spice Blend", "Tub", 290⟩
      (by decide) (by decide) (by decide) (by decide)
      (fun d hd => by rw [List.mem_singleton.mp hd]; decide) (by decide)
      (fun k hk => absurd hk (Nat.not_lt_zero k))
      (fun d hd => by rw [List.mem_singleton.mp hd]; decide)
      (fun d hd => by cases hd)
      (Or.inl rfl)
      (fun d hd => by cases hd)

set_option maxRecDepth 100000 in
/-- C2 counterexample: on the basic-parse path a quantity of 0 is accepted
(`0 P-CHZ` yields an item with quantity 0), so the claim that neither path
ever returns a non-positive quantity is false. -/
theorem claim2_item_validity_counterexample :
    ∃ it ∈ (basicParse "0 P-CHZ").items, it.quantity ≤ 0 := by
  refine ⟨⟨⟨"P-CHZ", "Cheese", "Pouch", 150⟩, 0⟩, ?_, le_refl 0⟩
  have h : (basicParse "0 P-CHZ").items = [⟨⟨"P-CHZ", "Cheese", "Pouch", 150⟩, 0⟩] := by
    decide
  rw [h]
  exact List.mem_singleton.mpr rfl

/-- C2 (amended): on both paths every returned item's product comes from
the 8-entry catalog; quantities are strictly positive on the JSON
reconciliation path but only non-negative on the basic-parse path (a
quantity written as `0` is kept there, see the counterexample). -/
theorem claim2_item_validity :
    (∀ msg : String, ∀ it ∈ (basicParse msg).items,
        it.product ∈ PRODUCTS.map Prod.snd ∧ 0 ≤ it.quantity) ∧
    (∀ (data : JsonVal) (raw : String) (o : ParsedOrder),
        createOrderFromJson data raw = .ok o →
        ∀ it ∈ o.items, it.product ∈ PRODUCTS.map Prod.snd ∧ 0 < it.quantity) := by
  constructor
  · intro msg it hit
    exact basicItems_props msg.data it hit
  · intro data raw o h it hit
    obtain ⟨⟨elems, helems⟩, _⟩ := createOrderFromJson_ok_spec h
    exact jsonToItems_props helems it hit

set_option maxRecDepth 100000 in
/-- C2 witness: the amended statement at the message `2 P-CHZ` and at the
concrete JSON candidate `c2data`. -/
theorem claim2_item_validity_witness :
    (∀ it ∈ (basicParse "2 P-CHZ").items,
        it.product ∈ PRODUCTS.map Prod.snd ∧ 0 ≤ it.quantity) ∧
    (∀ it ∈ c2order.items,
        it.product ∈ PRODUCTS.map Prod.snd ∧ 0 < it.quantity) :=
  ⟨claim2_item_validity.1 "2 P-CHZ",
   claim2_item_validity.2 c2data "m" c2order rfl⟩

/-- C4: whenever none of the three extraction strategies produces a JSON
candidate containing an `items` key, the reconciler returns exactly the
basic parse of the original message (never of the response text).  The
external `json.loads` is universally quantified. -/
theorem claim4_fallback (loads : String → Option JsonVal) (t m : String)
    (hno : ∀ v : JsonVal,
        ((braceSpanStr t).bind loads = some v ∨
         (fencedJsonStr t).bind loads = some v ∨
         loads t = some v) →
        pyContainsItems v ≠ .ok true) :
    extractAndValidate loads t m = basicParse m := by
  unfold extractAndValidate
  dsimp only
  split
  · rename_i v hv
    have hsrc : (braceSpanStr t).bind loads = some v ∨
        (fencedJsonStr t).bind loads = some v ∨ loads t = some v := by
      repeat' split at hv
      all_goals first
        | exact Or.inl hv
        | exact Or.inr (Or.inl hv)
        | exact Or.inr (Or.inr hv)
        | (rename_i w hw
           cases hv
           first
             | exact Or.inl hw
             | exact Or.inr (Or.inl hw)
             | exact Or.inr (Or.inr hw))
    split
    · have hn := hno v hsrc
      split
      · rename_i htrue
        exact absurd htrue hn
      · rfl
      · rfl
    · rfl
  · rfl

/-- C4 witness: the fallback at a `loads` that always fails to parse. -/
theorem claim4_fallback_witness :
    extractAndValidate (fun _ => none) "" "hi" = basicParse "hi" := by
  apply claim4_fallback
  intro v h _
  rcases h with h | h | h <;> exact Option.noConfusion h

/-- C5: on both paths the assigned seller is `Ferdie` exactly when the
location is `Quezon City`, `Nina` exactly when it is `Paranaque`, and
absent otherwise; on the JSON path this holds for every accepted candidate
regardless of any seller-like field it carries. -/
theorem claim5_seller_location :
    (∀ msg : String,
        ((basicParse msg).auto_sold_by = some "Ferdie" ↔
          (basicParse msg).customer_location = .str "Quezon City") ∧
        ((basicParse msg).auto_sold_by = some "Nina" ↔
          (basicParse msg).customer_location = .str "Paranaque") ∧
        ((basicParse msg).auto_sold_by = none ↔
          ((basicParse msg).customer_location ≠ .str "Quezon City" ∧
           (basicParse msg).customer_location ≠ .str "Paranaque"))) ∧
    (∀ (data : JsonVal) (raw : String) (o : ParsedOrder),
        createOrderFromJson data raw = .ok o →
        (o.auto_sold_by = some "Ferdie" ↔ o.customer_location = .str "Quezon City") ∧
        (o.auto_sold_by = some "Nina" ↔ o.customer_location = .str "Paranaque") ∧
        (o.auto_sold_by = none ↔
          (o.customer_location ≠ .str "Quezon City" ∧
           o.customer_location ≠ .str "Paranaque"))) := by
  constructor
  · intro msg
    have hs : (basicParse msg).auto_sold_by = (detectLocationAndSeller msg.data).2 := rfl
    have hl : (basicParse msg).customer_location =
        optStr (detectLocationAndSeller msg.data).1 := rfl
    rw [hs, hl]
    rcases detectLS_cases msg.data with h | h | h <;> rw [h] <;>
      refine ⟨?_, ?_, ?_⟩ <;> simp [optStr]
  · intro data raw o h
    obtain ⟨_, hs⟩ := createOrderFromJson_ok_spec h
    match hloc : o.customer_location with
    | .str s =>
      rw [hloc] at hs
      have hs2 : o.auto_sold_by =
          (if s = "Quezon City" then some "Ferdie"
           else if s = "Paranaque" then some "Nina" else none) := hs
      by_cases hq : s = "Quezon City"
      · subst hq
        rw [if_pos rfl] at hs2
        rw [hs2]
        refine ⟨?_, ?_, ?_⟩ <;> simp
      · by_cases hp : s = "Paranaque"
        · subst hp
          rw [if_neg (by decide), if_pos rfl] at hs2
          rw [hs2]
          refine ⟨?_, ?_, ?_⟩ <;> simp
        · rw [if_neg hq, if_neg hp] at hs2
          rw [hs2]
          refine ⟨?_, ?_, ?_⟩ <;> simp [JsonVal.str.injEq, hq, hp]
    | .null =>
      rw [hloc] at hs; rw [hs]
      refine ⟨?_, ?_, ?_⟩ <;> simp
    | .bool b =>
      rw [hloc] at hs; rw [hs]
      refine ⟨?_, ?_, ?_⟩ <;> simp
    | .num q =>
      rw [hloc] at hs; rw [hs]
      refine ⟨?_, ?_, ?_⟩ <;> simp
    | .arr l =>
      rw [hloc] at hs; rw [hs]
      refine ⟨?_, ?_, ?_⟩ <;> simp
    | .obj fs =>
      rw [hloc] at hs; rw [hs]
      refine ⟨?_, ?_, ?_⟩ <;> simp

/-- C5 witness: the seller rule at the message `sa qc po` and at the
concrete candidate `c5data`. -/
theorem claim5_seller_location_witness :
    (((basicParse "sa qc po").auto_sold_by = some "Ferdie" ↔
        (basicParse "sa qc po").customer_location = .str "Quezon City") ∧
      ((basicParse "sa qc po").auto_sold_by = some "Nina" ↔
        (basicParse "sa qc po").customer_location = .str "Paranaque") ∧
      ((basicParse "sa qc po").auto_sold_by = none ↔
        ((basicParse "sa qc po").customer_location ≠ .str "Quezon City" ∧
         (basicParse "sa qc po").customer_location ≠ .str "Paranaque"))) ∧
    ((c5order.auto_sold_by = some "Ferdie" ↔
        c5order.customer_location = .str "Quezon City") ∧
      (c5order.auto_sold_by = some "Nina" ↔
        c5order.customer_location = .str "Paranaque") ∧
      (c5order.auto_sold_by = none ↔
        (c5order.customer_location ≠ .str "Quezon City" ∧
         c5order.customer_location ≠ .str "Paranaque"))) :=
  ⟨claim5_seller_location.1 "sa qc po",
   claim5_seller_location.2 c5data "m" c5order rfl⟩

end Preetos
